import Mathlib

/-!
Shallow embedding of the PyAutograd engine (`src/pygrad/engine.py`).

Python `Value` objects live on a heap; we model the heap as a list of
nodes in construction order, and object references as list indices.
An operation can only reference nodes that already exist, so every
child index of a node built through the public interface is strictly
smaller than the node's own index (`Wf` below).  This is what makes
the recursive backward traversal of the source terminate, and the
`fuel` arguments below are explicit bounds on that recursion depth;
a fuel of `s.length` is always sufficient on a well-formed heap.

Python `float` values are modelled as rationals.  The two external
numeric primitives whose values no claim depends on, `math.tanh` and
float exponentiation `**` with a plain numeric exponent, are taken as
parameters `tanhFn` and `powFn`.  Python float division raises
`ZeroDivisionError` on a zero divisor; the primitive `pydiv` models
this with `Except`.  Likewise `float ** Value` has no overload and
raises `TypeError`, modelled by the `PowArg.node` branch of
`Value.pow` returning `Except.error`.
-/

/-- A node of the computation graph: class `Value` of `engine.py`.
Fields are named after the source attributes: forward result `data`,
accumulated gradient `grad`, references to the operand nodes
`child_1`/`child_2`, and the local derivatives `grad_child_1` and
`grad_child_2` recorded at construction time. -/
structure Value where
  data : ℚ
  grad : ℚ
  child_1 : Option Nat
  child_2 : Option Nat
  grad_child_1 : Option ℚ
  grad_child_2 : Option ℚ
deriving DecidableEq, Inhabited

/-- The heap of all constructed nodes, in construction order. -/
abbrev State := List Value

/-- Dereference index `i` on heap `s` (an out-of-range read gives the
default node; this is never exercised on well-formed inputs). -/
def getN (s : State) (i : Nat) : Value := s.getD i default

/-- Python float division: raises `ZeroDivisionError` on a divisor of
zero, modelled as `Except.error`. -/
def pydiv (a b : ℚ) : Except Unit ℚ :=
  if b = 0 then Except.error () else Except.ok (a / b)

/-- engine.py `Value.__init__`: a fresh node holding the given data,
zero gradient, and empty child and child-gradient slots.  Returns the
new heap and the index of the new node. -/
def Value.init (s : State) (data : ℚ) : State × Nat :=
  (s ++ [{ data := data, grad := 0, child_1 := none, child_2 := none,
           grad_child_1 := none, grad_child_2 := none }], s.length)

/-- engine.py `Value.__add__` applied to the nodes at indices `self`
and `other`: data is the sum, both local derivatives are `1.0`. -/
def Value.add (s : State) (self other : Nat) : State × Nat :=
  (s ++ [{ data := (getN s self).data + (getN s other).data, grad := 0,
           child_1 := some self, child_2 := some other,
           grad_child_1 := some 1, grad_child_2 := some 1 }], s.length)

/-- engine.py `Value.__sub__`: data is the difference, local
derivatives `1.0` and `-1.0`. -/
def Value.sub (s : State) (self other : Nat) : State × Nat :=
  (s ++ [{ data := (getN s self).data - (getN s other).data, grad := 0,
           child_1 := some self, child_2 := some other,
           grad_child_1 := some 1, grad_child_2 := some (-1) }], s.length)

/-- engine.py `Value.__mul__`: data is the product, local derivatives
are the opposite operand's data. -/
def Value.mul (s : State) (self other : Nat) : State × Nat :=
  (s ++ [{ data := (getN s self).data * (getN s other).data, grad := 0,
           child_1 := some self, child_2 := some other,
           grad_child_1 := some (getN s other).data,
           grad_child_2 := some (getN s self).data }], s.length)

/-- engine.py `Value.__truediv__`: data `self.data / other.data`,
local derivatives `1.0 / other.data` and `-self.data / other.data**2`.
Each `/` is Python float division, so a zero divisor raises. -/
def Value.truediv (s : State) (self other : Nat) : Except Unit (State × Nat) := do
  let data ← pydiv (getN s self).data (getN s other).data
  let g1 ← pydiv 1 (getN s other).data
  let g2 ← pydiv (-(getN s self).data) ((getN s other).data ^ 2)
  Except.ok (s ++ [{ data := data, grad := 0,
                     child_1 := some self, child_2 := some other,
                     grad_child_1 := some g1,
                     grad_child_2 := some g2 }], s.length)

/-- Argument of `Value.__pow__`: the source annotation admits a node
or a plain number, but the body evaluates `self.data ** power`, float
exponentiation, which has no overload for a `Value` argument and
raises `TypeError` when `power` is a node. -/
inductive PowArg where
  | node (idx : Nat)
  | const (c : ℚ)

/-- engine.py `Value.__pow__` with exponent `power`.  For a plain
number `c` it builds a unary node with data `self.data ** c` and local
derivative `c * self.data ** (c - 1)`; for a node-valued exponent the
underlying `**` raises `TypeError` and no node is created. -/
def Value.pow (powFn : ℚ → ℚ → ℚ) (s : State) (self : Nat) :
    PowArg → Except Unit (State × Nat)
  | PowArg.node _ => Except.error ()
  | PowArg.const c =>
      Except.ok (s ++ [{ data := powFn (getN s self).data c, grad := 0,
                         child_1 := some self, child_2 := none,
                         grad_child_1 :=
                           some (c * powFn (getN s self).data (c - 1)),
                         grad_child_2 := none }], s.length)

/-- engine.py `Value.__neg__`: data is the negation, local derivative
`-1.0`. -/
def Value.neg (s : State) (self : Nat) : State × Nat :=
  (s ++ [{ data := -(getN s self).data, grad := 0,
           child_1 := some self, child_2 := none,
           grad_child_1 := some (-1), grad_child_2 := none }], s.length)

/-- engine.py `Value.tanh`: data `tanh(self.data)`, local derivative
`1.0 - data**2` computed from the freshly computed data. -/
def Value.tanh (tanhFn : ℚ → ℚ) (s : State) (self : Nat) : State × Nat :=
  (s ++ [{ data := tanhFn (getN s self).data, grad := 0,
           child_1 := some self, child_2 := none,
           grad_child_1 := some (1 - tanhFn (getN s self).data ^ 2),
           grad_child_2 := none }], s.length)

/-- engine.py `Value.relu`: data `self.data * (self.data > 0)`, local
derivative `1.0 * (self.data > 0)`. -/
def Value.relu (s : State) (self : Nat) : State × Nat :=
  (s ++ [{ data := if 0 < (getN s self).data then (getN s self).data else 0,
           grad := 0,
           child_1 := some self, child_2 := none,
           grad_child_1 := some (if 0 < (getN s self).data then 1 else 0),
           grad_child_2 := none }], s.length)

/-- engine.py `Value.traverse`: if the child reference `other` is not
`None`, deposit `self.grad * child_grad` into the child's gradient and
recurse into the child's own children with their recorded local
derivatives.  `fuel` bounds the recursion depth; references always
point to earlier-constructed nodes, so on a well-formed heap a fuel of
`s.length` is never exhausted. -/
def Value.traverse (fuel : Nat) (s : State) (selfIdx : Nat) :
    Option Nat → Option ℚ → State
  | none, _ => s
  | some j, child_grad =>
    match fuel with
    | 0 => s
    | fuel' + 1 =>
      let g := (getN s selfIdx).grad * child_grad.getD 0
      let oj := getN s j
      let s1 := s.set j { oj with grad := oj.grad + g }
      let s2 := Value.traverse fuel' s1 j (getN s1 j).child_1 (getN s1 j).grad_child_1
      Value.traverse fuel' s2 j (getN s2 j).child_2 (getN s2 j).grad_child_2

/-- engine.py `Value.backward`: assign `1.0` to the node's own
gradient, then traverse the first and second child. -/
def Value.backward (s : State) (selfIdx : Nat) : State :=
  let o := getN s selfIdx
  let s0 := s.set selfIdx { o with grad := 1 }
  let s1 := Value.traverse s.length s0 selfIdx (getN s0 selfIdx).child_1
              (getN s0 selfIdx).grad_child_1
  Value.traverse s.length s1 selfIdx (getN s1 selfIdx).child_2
    (getN s1 selfIdx).grad_child_2

/-- Bound on an optional child reference. -/
def optBound : Option Nat → Nat → Prop
  | none, _ => True
  | some c, j => c < j

instance (o : Option Nat) (j : Nat) : Decidable (optBound o j) :=
  match o with
  | none => Decidable.isTrue trivial
  | some c => inferInstanceAs (Decidable (c < j))

/-- Both child references of a node point strictly below index `j`. -/
def childLT (n : Value) (j : Nat) : Prop :=
  optBound n.child_1 j ∧ optBound n.child_2 j

instance (n : Value) (j : Nat) : Decidable (childLT n j) :=
  inferInstanceAs (Decidable (optBound n.child_1 j ∧ optBound n.child_2 j))

/-- Well-formed heap: every node references only earlier-constructed
nodes.  Every heap built through the public interface satisfies this. -/
def Wf (s : State) : Prop := ∀ j, childLT (getN s j) j

/-- Equality of every node field except the mutable gradient. -/
def eqShape (n m : Value) : Prop :=
  n.data = m.data ∧ n.child_1 = m.child_1 ∧ n.child_2 = m.child_2 ∧
  n.grad_child_1 = m.grad_child_1 ∧ n.grad_child_2 = m.grad_child_2

/-- Pointwise shape equality of two heaps. -/
def shapeEqS (s t : State) : Prop := ∀ i, eqShape (getN s i) (getN t i)

/-- Fueled list of nodes reachable from `j` through operand
references, with one occurrence per reference path (so a node that is
reused as an operand occurs once per path). -/
def visitF (s : State) : Nat → Nat → List Nat
  | 0, _ => []
  | fuel + 1, j =>
    j :: ((match (getN s j).child_1 with
           | some c => visitF s fuel c
           | none => []) ++
          (match (getN s j).child_2 with
           | some c => visitF s fuel c
           | none => []))

/-- Canonical reachability list: on a well-formed heap the fuel
`j + 1` is always sufficient. -/
def visit (s : State) (j : Nat) : List Nat := visitF s (j + 1) j

/-- Fueled chain-rule derivative of node `r` with respect to node `i`
over the recorded local derivatives: the sum, over all operand paths
from `r` to `i`, of the products of the recorded local derivatives
along the path. -/
def chainDerivF (s : State) : Nat → Nat → Nat → ℚ
  | 0, _, _ => 0
  | fuel + 1, r, i =>
    if i = r then 1
    else
      (match (getN s r).child_1 with
       | some c => (getN s r).grad_child_1.getD 0 * chainDerivF s fuel c i
       | none => 0) +
      (match (getN s r).child_2 with
       | some c => (getN s r).grad_child_2.getD 0 * chainDerivF s fuel c i
       | none => 0)

/-- Canonical chain-rule derivative: on a well-formed heap the fuel
`r + 1` is always sufficient. -/
def chainDeriv (s : State) (r i : Nat) : ℚ := chainDerivF s (r + 1) r i

/-- Fueled depth of node `i` below node `r`: the number of operand
edges on the path from `r` to `i`, following the first child branch
whose reachable set contains `i`. -/
def depthF (s : State) : Nat → Nat → Nat → Nat
  | 0, _, _ => 0
  | fuel + 1, r, i =>
    if i = r then 0
    else
      match (getN s r).child_1 with
      | some c =>
        if i ∈ visitF s fuel c then depthF s fuel c i + 1
        else
          match (getN s r).child_2 with
          | some c2 => if i ∈ visitF s fuel c2 then depthF s fuel c2 i + 1 else 0
          | none => 0
      | none =>
        match (getN s r).child_2 with
        | some c2 => if i ∈ visitF s fuel c2 then depthF s fuel c2 i + 1 else 0
        | none => 0

/-- Canonical depth: on a well-formed heap the fuel `r + 1` is always
sufficient. -/
def depth (s : State) (r i : Nat) : Nat := depthF s (r + 1) r i

/-- Leaf shape: all four operand and local-derivative slots empty. -/
def leafShape (n : Value) : Prop :=
  n.child_1 = none ∧ n.grad_child_1 = none ∧
  n.child_2 = none ∧ n.grad_child_2 = none

/-- Unary shape: first operand and first local derivative set, second
pair empty. -/
def unaryShape (n : Value) : Prop :=
  n.child_1 ≠ none ∧ n.grad_child_1 ≠ none ∧
  n.child_2 = none ∧ n.grad_child_2 = none

/-- Binary shape: all four slots set. -/
def binaryShape (n : Value) : Prop :=
  n.child_1 ≠ none ∧ n.grad_child_1 ≠ none ∧
  n.child_2 ≠ none ∧ n.grad_child_2 ≠ none

/-- Slot invariant of a node: leaf, unary, or binary shape. -/
def slotInv (n : Value) : Prop :=
  leafShape n ∨ unaryShape n ∨ binaryShape n

/-- Heaps reachable through the public interface: leaf construction
and the operator methods, each applied to already-existing nodes; with
flag `true`, also backward passes started on an existing node. -/
inductive Built (tanhFn : ℚ → ℚ) (powFn : ℚ → ℚ → ℚ) : Bool → State → Prop where
  | nil (b : Bool) : Built tanhFn powFn b []
  | init (b : Bool) (s : State) (d : ℚ) :
      Built tanhFn powFn b s → Built tanhFn powFn b (Value.init s d).1
  | add (b : Bool) (s : State) (x y : Nat) (hx : x < s.length)
      (hy : y < s.length) :
      Built tanhFn powFn b s → Built tanhFn powFn b (Value.add s x y).1
  | sub (b : Bool) (s : State) (x y : Nat) (hx : x < s.length)
      (hy : y < s.length) :
      Built tanhFn powFn b s → Built tanhFn powFn b (Value.sub s x y).1
  | mul (b : Bool) (s : State) (x y : Nat) (hx : x < s.length)
      (hy : y < s.length) :
      Built tanhFn powFn b s → Built tanhFn powFn b (Value.mul s x y).1
  | div (b : Bool) (s : State) (x y : Nat) (r : State × Nat)
      (hx : x < s.length) (hy : y < s.length) :
      Built tanhFn powFn b s → Value.truediv s x y = Except.ok r →
      Built tanhFn powFn b r.1
  | pow (b : Bool) (s : State) (x : Nat) (c : ℚ) (r : State × Nat)
      (hx : x < s.length) :
      Built tanhFn powFn b s →
      Value.pow powFn s x (PowArg.const c) = Except.ok r →
      Built tanhFn powFn b r.1
  | neg (b : Bool) (s : State) (x : Nat) (hx : x < s.length) :
      Built tanhFn powFn b s → Built tanhFn powFn b (Value.neg s x).1
  | tanh (b : Bool) (s : State) (x : Nat) (hx : x < s.length) :
      Built tanhFn powFn b s → Built tanhFn powFn b (Value.tanh tanhFn s x).1
  | relu (b : Bool) (s : State) (x : Nat) (hx : x < s.length) :
      Built tanhFn powFn b s → Built tanhFn powFn b (Value.relu s x).1
  | backward (s : State) (n : Nat) (hn : n < s.length) :
      Built tanhFn powFn true s → Built tanhFn powFn true (Value.backward s n)

/-- A fresh leaf node holding data `d`. -/
def leafN (d : ℚ) : Value :=
  { data := d, grad := 0, child_1 := none, child_2 := none,
    grad_child_1 := none, grad_child_2 := none }

/-- The concrete scenario of the specification: `a = 2`, `b = 3`,
`c = 4`, `t = a + b`, `out = t * c`; a tree-shaped expression. -/
def sScen : State :=
  [leafN 2, leafN 3, leafN 4,
   { data := 5, grad := 0, child_1 := some 0, child_2 := some 1,
     grad_child_1 := some 1, grad_child_2 := some 1 },
   { data := 20, grad := 0, child_1 := some 3, child_2 := some 2,
     grad_child_1 := some 4, grad_child_2 := some 5 }]

/-- A shared-node expression graph: leaf `b = 1` at index 0,
`t = b + b` at index 1, `u = -t` at index 2, `v = -t` at index 3, and
`out = u + v` at index 4; the non-leaf node `t` is an operand of the
two distinct downstream nodes `u` and `v`. -/
def sShared : State :=
  [leafN 1,
   { data := 2, grad := 0, child_1 := some 0, child_2 := some 0,
     grad_child_1 := some 1, grad_child_2 := some 1 },
   { data := -2, grad := 0, child_1 := some 1, child_2 := none,
     grad_child_1 := some (-1), grad_child_2 := none },
   { data := -2, grad := 0, child_1 := some 1, child_2 := none,
     grad_child_1 := some (-1), grad_child_2 := none },
   { data := -4, grad := 0, child_1 := some 2, child_2 := some 3,
     grad_child_1 := some 1, grad_child_2 := some 1 }]

/-- A two-level chain: leaf `a = 1` at index 0, `t = -a` at index 1,
`out = -t` at index 2. -/
def sChain : State :=
  [leafN 1,
   { data := -1, grad := 0, child_1 := some 0, child_2 := none,
     grad_child_1 := some (-1), grad_child_2 := none },
   { data := 1, grad := 0, child_1 := some 1, child_2 := none,
     grad_child_1 := some (-1), grad_child_2 := none }]

/-- Two fresh leaves with data `2` and `3`. -/
def sLeaves : State := [leafN 2, leafN 3]

/-- Stand-in for `math.tanh` used by concrete witnesses; the engine
never inspects its values beyond recording them. -/
def tf0 : ℚ → ℚ := fun _ => 0

/-- Stand-in for float exponentiation used by concrete witnesses. -/
def pf0 : ℚ → ℚ → ℚ := fun _ _ => 0

/-- Reachability list through an optional child reference. -/
def optVisit (s : State) : Option Nat → List Nat
  | none => []
  | some c => visit s c

/-- Contribution of one optional child branch to the chain-rule
derivative with respect to node `i`. -/
def chainStep (s : State) (i : Nat) (gc : Option ℚ) : Option Nat → ℚ
  | some c => gc.getD 0 * chainDeriv s c i
  | none => 0

/-- Depth of `i` through one optional child branch. -/
def depthStep (s : State) (i : Nat) : Option Nat → Nat
  | some c => if i ∈ visit s c then depth s c i + 1 else 0
  | none => 0

/-- Chain-rule derivative relative to an optional subtree root. -/
def oChain (s : State) : Option Nat → Nat → ℚ
  | some j, i => chainDeriv s j i
  | none, _ => 0

/-- Depth relative to an optional subtree root. -/
def oDepth (s : State) : Option Nat → Nat → Nat
  | some j, i => depth s j i
  | none, _ => 0

/-- A single zero leaf. -/
def sLeaf0 : State := [leafN 0]

/-- The heap-and-index pair returned by dividing the two leaves of
`sLeaves`. -/
def dEx : State × Nat :=
  (sLeaves ++ [{ data := 2 / 3, grad := 0, child_1 := some 0,
                 child_2 := some 1, grad_child_1 := some (1 / 3),
                 grad_child_2 := some (-2 / 9) }], 2)

/-- The intermediate heap after the gradient deposit of one
`Value.traverse` step. -/
def traverseSet (s : State) (p j : Nat) (cg : Option ℚ) : State :=
  s.set j { getN s j with
            grad := (getN s j).grad + (getN s p).grad * cg.getD 0 }

/-- The heap after `Value.backward` assigns `1.0` to the root. -/
def backwardSet (s : State) (r : Nat) : State :=
  s.set r { getN s r with grad := 1 }

theorem getN_nil (i : Nat) : getN [] i = default := by
  simp [getN]

theorem getN_of_length_le (s : State) (i : Nat) (h : s.length ≤ i) :
    getN s i = default := by
  simp [getN, List.getD, List.getElem?_eq_none h]

theorem getN_append_lt (s : State) (v : Value) (i : Nat) (h : i < s.length) :
    getN (s ++ [v]) i = getN s i := by
  simp [getN, List.getD, List.getElem?_append_left h]

theorem getN_append_self (s : State) (v : Value) :
    getN (s ++ [v]) s.length = v := by
  simp [getN, List.getD]

theorem getN_set_self (s : State) (j : Nat) (v : Value) (h : j < s.length) :
    getN (s.set j v) j = v := by
  simp [getN, List.getD, List.getElem?_set_self', h]

theorem getN_set_ne (s : State) (i j : Nat) (v : Value) (h : i ≠ j) :
    getN (s.set j v) i = getN s i := by
  simp [getN, List.getD, List.getElem?_set_ne (Ne.symm h)]

theorem wf_of_bounded (s : State) (h : ∀ j, j < s.length → childLT (getN s j) j) :
    Wf s := by
  intro j
  by_cases hj : j < s.length
  · exact h j hj
  · rw [getN_of_length_le s j (Nat.le_of_not_lt hj)]
    exact ⟨trivial, trivial⟩

theorem optBound_some (c j : Nat) : optBound (some c) j ↔ c < j := Iff.rfl

theorem eqShape_refl (n : Value) : eqShape n n := ⟨rfl, rfl, rfl, rfl, rfl⟩

theorem shapeEqS_refl (s : State) : shapeEqS s s := fun _ => eqShape_refl _

theorem shapeEqS_trans {s t u : State} (h1 : shapeEqS s t)
    (h2 : shapeEqS t u) : shapeEqS s u := by
  intro i
  obtain ⟨a1, b1, c1, d1, e1⟩ := h1 i
  obtain ⟨a2, b2, c2, d2, e2⟩ := h2 i
  exact ⟨a1.trans a2, b1.trans b2, c1.trans c2, d1.trans d2, e1.trans e2⟩

theorem getN_set_ge (s : State) (i j : Nat) (v : Value) (h : s.length ≤ j) :
    getN (s.set j v) i = getN s i := by
  rw [List.set_eq_of_length_le h]

theorem shapeEqS_set_grad (s : State) (j : Nat) (x : ℚ) :
    shapeEqS (s.set j { getN s j with grad := x }) s := by
  intro i
  by_cases hij : i = j
  · subst hij
    by_cases hj : i < s.length
    · rw [getN_set_self s i _ hj]
      exact ⟨rfl, rfl, rfl, rfl, rfl⟩
    · rw [getN_set_ge s i i _ (Nat.le_of_not_lt hj)]
      exact eqShape_refl _
  · rw [getN_set_ne s i j _ hij]
    exact eqShape_refl _

theorem traverse_length (fuel : Nat) (s : State) (p : Nat) (o : Option Nat)
    (cg : Option ℚ) : (Value.traverse fuel s p o cg).length = s.length := by
  induction fuel generalizing s p o cg with
  | zero => cases o <;> simp [Value.traverse]
  | succ f ih =>
    cases o with
    | none => simp [Value.traverse]
    | some j =>
      simp only [Value.traverse]
      rw [ih, ih, List.length_set]

theorem traverse_shapeEq (fuel : Nat) (s : State) (p : Nat) (o : Option Nat)
    (cg : Option ℚ) : shapeEqS (Value.traverse fuel s p o cg) s := by
  induction fuel generalizing s p o cg with
  | zero => cases o <;> simp [Value.traverse, shapeEqS_refl]
  | succ f ih =>
    cases o with
    | none => simp [Value.traverse, shapeEqS_refl]
    | some j =>
      simp only [Value.traverse]
      exact shapeEqS_trans (shapeEqS_trans (ih _ _ _ _) (ih _ _ _ _))
        (shapeEqS_set_grad s j _)

theorem backward_length (s : State) (r : Nat) :
    (Value.backward s r).length = s.length := by
  simp only [Value.backward]
  rw [traverse_length, traverse_length, List.length_set]

theorem backward_shapeEq (s : State) (r : Nat) :
    shapeEqS (Value.backward s r) s := by
  simp only [Value.backward]
  exact shapeEqS_trans (shapeEqS_trans (traverse_shapeEq _ _ _ _ _)
    (traverse_shapeEq _ _ _ _ _)) (shapeEqS_set_grad s r _)

theorem wf_shapeEq {s t : State} (h : shapeEqS s t) (hw : Wf t) : Wf s := by
  intro j
  refine ⟨?_, ?_⟩
  · rw [(h j).2.1]
    exact (hw j).1
  · rw [(h j).2.2.1]
    exact (hw j).2

theorem visitF_shapeEq {s t : State} (h : shapeEqS s t) :
    ∀ fuel j, visitF s fuel j = visitF t fuel j := by
  intro fuel
  induction fuel with
  | zero => intro j; rfl
  | succ f ih =>
    intro j
    simp only [visitF]
    rw [(h j).2.1, (h j).2.2.1]
    rcases (getN t j).child_1 with _ | c1 <;>
      rcases (getN t j).child_2 with _ | c2 <;> simp [ih]

theorem chainDerivF_shapeEq {s t : State} (h : shapeEqS s t) :
    ∀ fuel r i, chainDerivF s fuel r i = chainDerivF t fuel r i := by
  intro fuel
  induction fuel with
  | zero => intro r i; rfl
  | succ f ih =>
    intro r i
    simp only [chainDerivF]
    rw [(h r).2.1, (h r).2.2.1, (h r).2.2.2.1, (h r).2.2.2.2]
    rcases (getN t r).child_1 with _ | c1 <;>
      rcases (getN t r).child_2 with _ | c2 <;> simp [ih]

theorem depthF_shapeEq {s t : State} (h : shapeEqS s t) :
    ∀ fuel r i, depthF s fuel r i = depthF t fuel r i := by
  intro fuel
  induction fuel with
  | zero => intro r i; rfl
  | succ f ih =>
    intro r i
    simp only [depthF]
    rw [(h r).2.1, (h r).2.2.1]
    rcases (getN t r).child_1 with _ | c1 <;>
      rcases (getN t r).child_2 with _ | c2 <;>
        simp [ih, visitF_shapeEq h]

theorem visitF_stable {s : State} (hw : Wf s) :
    ∀ f1 f2 j, j < f1 → j < f2 → visitF s f1 j = visitF s f2 j := by
  intro f1
  induction f1 with
  | zero => intro f2 j h1 h2; omega
  | succ f ih =>
    intro f2 j h1 h2
    cases f2 with
    | zero => omega
    | succ f2' =>
      have hb1 := (hw j).1
      have hb2 := (hw j).2
      simp only [visitF]
      rcases hc1 : (getN s j).child_1 with _ | c1 <;>
        rcases hc2 : (getN s j).child_2 with _ | c2 <;>
          simp only [hc1, hc2, optBound_some] at hb1 hb2 ⊢
      · rw [ih f2' c2 (by omega) (by omega)]
      · rw [ih f2' c1 (by omega) (by omega)]
      · rw [ih f2' c1 (by omega) (by omega), ih f2' c2 (by omega) (by omega)]

theorem visitF_eq_visit {s : State} (hw : Wf s) {fuel j : Nat} (h : j < fuel) :
    visitF s fuel j = visit s j :=
  visitF_stable hw fuel (j + 1) j h (Nat.lt_succ_self j)

theorem chainDerivF_stable {s : State} (hw : Wf s) :
    ∀ f1 f2 r i, r < f1 → r < f2 → chainDerivF s f1 r i = chainDerivF s f2 r i := by
  intro f1
  induction f1 with
  | zero => intro f2 r i h1 h2; omega
  | succ f ih =>
    intro f2 r i h1 h2
    cases f2 with
    | zero => omega
    | succ f2' =>
      have hb1 := (hw r).1
      have hb2 := (hw r).2
      simp only [chainDerivF]
      rcases hc1 : (getN s r).child_1 with _ | c1 <;>
        rcases hc2 : (getN s r).child_2 with _ | c2 <;>
          simp only [hc1, hc2, optBound_some] at hb1 hb2 ⊢
      · rw [ih f2' c2 i (by omega) (by omega)]
      · rw [ih f2' c1 i (by omega) (by omega)]
      · rw [ih f2' c1 i (by omega) (by omega), ih f2' c2 i (by omega) (by omega)]

theorem chainDerivF_eq_chainDeriv {s : State} (hw : Wf s) {fuel r : Nat}
    (i : Nat) (h : r < fuel) : chainDerivF s fuel r i = chainDeriv s r i :=
  chainDerivF_stable hw fuel (r + 1) r i h (Nat.lt_succ_self r)

theorem depthF_stable {s : State} (hw : Wf s) :
    ∀ f1 f2 r i, r < f1 → r < f2 → depthF s f1 r i = depthF s f2 r i := by
  intro f1
  induction f1 with
  | zero => intro f2 r i h1 h2; omega
  | succ f ih =>
    intro f2 r i h1 h2
    cases f2 with
    | zero => omega
    | succ f2' =>
      have hb1 := (hw r).1
      have hb2 := (hw r).2
      simp only [depthF]
      rcases hc1 : (getN s r).child_1 with _ | c1 <;>
        rcases hc2 : (getN s r).child_2 with _ | c2 <;>
          simp only [hc1, hc2, optBound_some] at hb1 hb2 ⊢
      · rw [visitF_eq_visit hw (show c2 < f by omega),
          visitF_eq_visit hw (show c2 < f2' by omega),
          ih f2' c2 i (by omega) (by omega)]
      · rw [visitF_eq_visit hw (show c1 < f by omega),
          visitF_eq_visit hw (show c1 < f2' by omega),
          ih f2' c1 i (by omega) (by omega)]
      · rw [visitF_eq_visit hw (show c1 < f by omega),
          visitF_eq_visit hw (show c1 < f2' by omega),
          visitF_eq_visit hw (show c2 < f by omega),
          visitF_eq_visit hw (show c2 < f2' by omega),
          ih f2' c1 i (by omega) (by omega), ih f2' c2 i (by omega) (by omega)]

theorem depthF_eq_depth {s : State} (hw : Wf s) {fuel r : Nat}
    (i : Nat) (h : r < fuel) : depthF s fuel r i = depth s r i :=
  depthF_stable hw fuel (r + 1) r i h (Nat.lt_succ_self r)

theorem self_mem_visit (s : State) (j : Nat) : j ∈ visit s j := by
  simp [visit, visitF]

theorem mem_visitF_le {s : State} (hw : Wf s) :
    ∀ fuel j i, i ∈ visitF s fuel j → i ≤ j := by
  intro fuel
  induction fuel with
  | zero => intro j i h; simp [visitF] at h
  | succ f ih =>
    intro j i h
    have hb1 := (hw j).1
    have hb2 := (hw j).2
    simp only [visitF] at h
    rcases hc1 : (getN s j).child_1 with _ | c1 <;>
      rcases hc2 : (getN s j).child_2 with _ | c2 <;>
        simp only [hc1, hc2, optBound_some] at hb1 hb2 h <;>
          simp only [List.append_nil, List.nil_append, List.mem_cons,
            List.mem_append, List.not_mem_nil, or_false, false_or] at h
    · omega
    · rcases h with rfl | h2
      · omega
      · have := ih c2 i h2
        omega
    · rcases h with rfl | h1
      · omega
      · have := ih c1 i h1
        omega
    · rcases h with rfl | h1 | h2
      · omega
      · have := ih c1 i h1
        omega
      · have := ih c2 i h2
        omega

theorem mem_visit_le {s : State} (hw : Wf s) {j i : Nat}
    (h : i ∈ visit s j) : i ≤ j :=
  mem_visitF_le hw (j + 1) j i h

theorem visit_eq {s : State} (hw : Wf s) (j : Nat) :
    visit s j =
      j :: (optVisit s (getN s j).child_1 ++ optVisit s (getN s j).child_2) := by
  have hb1 := (hw j).1
  have hb2 := (hw j).2
  show visitF s (j + 1) j = _
  simp only [visitF]
  rcases hc1 : (getN s j).child_1 with _ | c1 <;>
    rcases hc2 : (getN s j).child_2 with _ | c2 <;>
      simp only [hc1, hc2, optBound_some] at hb1 hb2 ⊢ <;>
        simp only [optVisit]
  · rw [visitF_eq_visit hw hb2]
  · rw [visitF_eq_visit hw hb1]
  · rw [visitF_eq_visit hw hb1, visitF_eq_visit hw hb2]

theorem chainDeriv_self (s : State) (j : Nat) : chainDeriv s j j = 1 := by
  simp [chainDeriv, chainDerivF]

theorem chainDeriv_eq {s : State} (hw : Wf s) (j i : Nat) :
    chainDeriv s j i = if i = j then 1
      else chainStep s i (getN s j).grad_child_1 (getN s j).child_1 +
        chainStep s i (getN s j).grad_child_2 (getN s j).child_2 := by
  have hb1 := (hw j).1
  have hb2 := (hw j).2
  show chainDerivF s (j + 1) j i = _
  simp only [chainDerivF]
  rcases hc1 : (getN s j).child_1 with _ | c1 <;>
    rcases hc2 : (getN s j).child_2 with _ | c2 <;>
      simp only [hc1, hc2, optBound_some] at hb1 hb2 ⊢ <;>
        simp only [chainStep]
  · rw [chainDerivF_eq_chainDeriv hw i hb2]
  · rw [chainDerivF_eq_chainDeriv hw i hb1]
  · rw [chainDerivF_eq_chainDeriv hw i hb1, chainDerivF_eq_chainDeriv hw i hb2]

theorem depth_self (s : State) (j : Nat) : depth s j j = 0 := by
  simp [depth, depthF]

theorem depth_eq {s : State} (hw : Wf s) (j i : Nat) (hne : i ≠ j) :
    depth s j i = if i ∈ optVisit s (getN s j).child_1
      then depthStep s i (getN s j).child_1
      else depthStep s i (getN s j).child_2 := by
  have hb1 := (hw j).1
  have hb2 := (hw j).2
  show depthF s (j + 1) j i = _
  simp only [depthF, if_neg hne]
  rcases hc1 : (getN s j).child_1 with _ | c1 <;>
    rcases hc2 : (getN s j).child_2 with _ | c2 <;>
      simp only [hc1, hc2, optBound_some] at hb1 hb2 ⊢ <;>
        simp only [optVisit, depthStep, List.not_mem_nil, if_false]
  · rw [visitF_eq_visit hw hb2, depthF_eq_depth hw i hb2]
  · rw [visitF_eq_visit hw hb1, depthF_eq_depth hw i hb1]
    by_cases hm : i ∈ visit s c1 <;> simp [hm]
  · rw [visitF_eq_visit hw hb1, visitF_eq_visit hw hb2,
      depthF_eq_depth hw i hb1, depthF_eq_depth hw i hb2]
    by_cases hm1 : i ∈ visit s c1 <;> simp [hm1]

theorem chainDerivF_eq_zero (s : State) :
    ∀ fuel j i, i ∉ visitF s fuel j → chainDerivF s fuel j i = 0 := by
  intro fuel
  induction fuel with
  | zero => intro j i h; rfl
  | succ f ih =>
    intro j i h
    simp only [visitF, List.mem_cons, List.mem_append] at h
    push_neg at h
    obtain ⟨hne, h1, h2⟩ := h
    rcases hc1 : (getN s j).child_1 with _ | c1 <;>
      rcases hc2 : (getN s j).child_2 with _ | c2
    · simp [chainDerivF, if_neg hne, hc1, hc2]
    · simp only [hc2] at h2
      simp [chainDerivF, if_neg hne, hc1, hc2, ih c2 i h2]
    · simp only [hc1] at h1
      simp [chainDerivF, if_neg hne, hc1, hc2, ih c1 i h1]
    · simp only [hc1] at h1
      simp only [hc2] at h2
      simp [chainDerivF, if_neg hne, hc1, hc2, ih c1 i h1, ih c2 i h2]

theorem chainDeriv_eq_zero {s : State} {j i : Nat} (h : i ∉ visit s j) :
    chainDeriv s j i = 0 :=
  chainDerivF_eq_zero s (j + 1) j i h

theorem optVisit_shapeEq {s t : State} (h : shapeEqS s t) (o : Option Nat) :
    optVisit s o = optVisit t o := by
  cases o with
  | none => rfl
  | some c => exact visitF_shapeEq h (c + 1) c

theorem oChain_shapeEq {s t : State} (h : shapeEqS s t) (o : Option Nat)
    (i : Nat) : oChain s o i = oChain t o i := by
  cases o with
  | none => rfl
  | some c => exact chainDerivF_shapeEq h (c + 1) c i

theorem oDepth_shapeEq {s t : State} (h : shapeEqS s t) (o : Option Nat)
    (i : Nat) : oDepth s o i = oDepth t o i := by
  cases o with
  | none => rfl
  | some c => exact depthF_shapeEq h (c + 1) c i

theorem chainStep_of_not_mem {s : State} {i : Nat} {o : Option Nat}
    (gc : Option ℚ) (h : i ∉ optVisit s o) : chainStep s i gc o = 0 := by
  cases o with
  | none => rfl
  | some c =>
    simp only [chainStep, chainDeriv_eq_zero (h : i ∉ visit s c), mul_zero]

theorem chainStep_of_mem {s : State} {i : Nat} {o : Option Nat}
    (gc : Option ℚ) (h : i ∈ optVisit s o) :
    chainStep s i gc o = gc.getD 0 * oChain s o i := by
  cases o with
  | none => exact absurd h (List.not_mem_nil i)
  | some c => rfl

theorem depthStep_of_mem {s : State} {i : Nat} {o : Option Nat}
    (h : i ∈ optVisit s o) : depthStep s i o = oDepth s o i + 1 := by
  cases o with
  | none => exact absurd h (List.not_mem_nil i)
  | some c =>
    have h' : i ∈ visit s c := h
    simp only [depthStep, oDepth, if_pos h']

theorem mem_optVisit_lt {s : State} (hw : Wf s) {o : Option Nat} {i j : Nat}
    (hb : ∀ c ∈ o, c < j) (h : i ∈ optVisit s o) : i < j := by
  cases o with
  | none => exact absurd h (List.not_mem_nil i)
  | some c =>
    have h1 : i ≤ c := mem_visit_le hw h
    have h2 : c < j := hb c rfl
    omega

theorem chainDeriv_branch_1 {s : State} (hw : Wf s) {j i : Nat}
    (hm : i ∈ optVisit s (getN s j).child_1)
    (hne : i ≠ j) (hnot2 : i ∉ optVisit s (getN s j).child_2) :
    chainDeriv s j i =
      (getN s j).grad_child_1.getD 0 * oChain s (getN s j).child_1 i := by
  rw [chainDeriv_eq hw j i, if_neg hne, chainStep_of_mem _ hm,
    chainStep_of_not_mem _ hnot2, add_zero]

theorem chainDeriv_branch_2 {s : State} (hw : Wf s) {j i : Nat}
    (hm : i ∈ optVisit s (getN s j).child_2)
    (hne : i ≠ j) (hnot1 : i ∉ optVisit s (getN s j).child_1) :
    chainDeriv s j i =
      (getN s j).grad_child_2.getD 0 * oChain s (getN s j).child_2 i := by
  rw [chainDeriv_eq hw j i, if_neg hne, chainStep_of_mem _ hm,
    chainStep_of_not_mem _ hnot1, zero_add]

theorem depth_branch_1 {s : State} (hw : Wf s) {j i : Nat}
    (hm : i ∈ optVisit s (getN s j).child_1) (hne : i ≠ j) :
    depth s j i = oDepth s (getN s j).child_1 i + 1 := by
  rw [depth_eq hw j i hne, if_pos hm, depthStep_of_mem hm]

theorem depth_branch_2 {s : State} (hw : Wf s) {j i : Nat}
    (hm : i ∈ optVisit s (getN s j).child_2) (hne : i ≠ j)
    (hnot1 : i ∉ optVisit s (getN s j).child_1) :
    depth s j i = oDepth s (getN s j).child_2 i + 1 := by
  rw [depth_eq hw j i hne, if_neg hnot1, depthStep_of_mem hm]

theorem optBound_lt {o : Option Nat} {j c : Nat} (h : optBound o j)
    (hc : c ∈ o) : c < j := by
  cases o with
  | none => exact absurd hc (by simp)
  | some x =>
    have hcx : x = c := by simpa using hc
    subst hcx
    exact h

theorem optVisit_some_eq (s : State) (j : Nat) :
    optVisit s (some j) = visit s j := rfl

theorem oChain_some_eq (s : State) (j i : Nat) :
    oChain s (some j) i = chainDeriv s j i := rfl

theorem oDepth_some_eq (s : State) (j i : Nat) :
    oDepth s (some j) i = depth s j i := rfl

theorem traverse_succ_eq (f : Nat) (s : State) (p j : Nat) (cg : Option ℚ) :
    Value.traverse (f + 1) s p (some j) cg =
      Value.traverse f
        (Value.traverse f (traverseSet s p j cg) j
          (getN (traverseSet s p j cg) j).child_1
          (getN (traverseSet s p j cg) j).grad_child_1)
        j
        (getN (Value.traverse f (traverseSet s p j cg) j
          (getN (traverseSet s p j cg) j).child_1
          (getN (traverseSet s p j cg) j).grad_child_1) j).child_2
        (getN (Value.traverse f (traverseSet s p j cg) j
          (getN (traverseSet s p j cg) j).child_1
          (getN (traverseSet s p j cg) j).grad_child_1) j).grad_child_2 := rfl

theorem traverse_general :
    ∀ (fuel : Nat) (s : State) (p : Nat) (o : Option Nat) (cg : Option ℚ)
      (e : ℚ),
      Wf s → (∀ c ∈ o, c < fuel) → (∀ c ∈ o, c < s.length) →
      (optVisit s o).Nodup →
      (∀ i ∈ optVisit s o, (getN s i).grad = e * oChain s o i) →
      (∀ i ∈ optVisit s o,
          (getN (Value.traverse fuel s p o cg) i).grad =
            (((oDepth s o i : ℚ) + 1) * e + (getN s p).grad * cg.getD 0) *
              oChain s o i) ∧
      (∀ i, i ∉ optVisit s o →
          getN (Value.traverse fuel s p o cg) i = getN s i) := by
  intro fuel
  induction fuel with
  | zero =>
    intro s p o cg e hw hf hlen hnd hg
    cases o with
    | none => exact ⟨fun i hi => absurd hi (List.not_mem_nil i), fun i _ => rfl⟩
    | some j => exact absurd (hf j rfl) (Nat.not_lt_zero j)
  | succ f ih =>
    intro s p o cg e hw hf hlen hnd hg
    cases o with
    | none => exact ⟨fun i hi => absurd hi (List.not_mem_nil i), fun i _ => rfl⟩
    | some j =>
      have hjf : j < f + 1 := hf j rfl
      have hjlen : j < s.length := hlen j rfl
      rw [traverse_succ_eq]
      set t1 := traverseSet s p j cg with ht1
      set t2 := Value.traverse f t1 j (getN t1 j).child_1
        (getN t1 j).grad_child_1 with ht2
      set t3 := Value.traverse f t2 j (getN t2 j).child_2
        (getN t2 j).grad_child_2 with ht3
      -- basic facts about the deposit state t1
      have hsh1 : shapeEqS t1 s := by
        rw [ht1]
        exact shapeEqS_set_grad s j _
      have hw1 : Wf t1 := wf_shapeEq hsh1 hw
      have hlen1 : t1.length = s.length := by
        rw [ht1]
        simp [traverseSet]
      have hget1j : getN t1 j =
          { getN s j with
            grad := (getN s j).grad + (getN s p).grad * cg.getD 0 } := by
        rw [ht1]
        exact getN_set_self s j _ hjlen
      have hgradj : (getN s j).grad = e := by
        have h0 := hg j (self_mem_visit s j)
        rw [oChain_some_eq, chainDeriv_self, mul_one] at h0
        exact h0
      have hget1jgrad : (getN t1 j).grad =
          e + (getN s p).grad * cg.getD 0 := by
        rw [hget1j, hgradj]
      have hc1 : (getN t1 j).child_1 = (getN s j).child_1 := by rw [hget1j]
      have hgc1 : (getN t1 j).grad_child_1 = (getN s j).grad_child_1 := by
        rw [hget1j]
      -- decomposition of the visit list of j
      have hvis : visit s j =
          j :: (optVisit s (getN s j).child_1 ++
            optVisit s (getN s j).child_2) := visit_eq hw j
      have hnd' : (j :: (optVisit s (getN s j).child_1 ++
          optVisit s (getN s j).child_2)).Nodup := by
        rw [← hvis]
        exact hnd
      have hjnot : j ∉ optVisit s (getN s j).child_1 ++
          optVisit s (getN s j).child_2 := (List.nodup_cons.mp hnd').1
      have hndt := (List.nodup_cons.mp hnd').2
      have hnd1 : (optVisit s (getN s j).child_1).Nodup :=
        (List.nodup_append.mp hndt).1
      have hnd2 : (optVisit s (getN s j).child_2).Nodup :=
        (List.nodup_append.mp hndt).2.1
      have hdisj := (List.nodup_append.mp hndt).2.2
      have hjnot1 : j ∉ optVisit s (getN s j).child_1 := fun h =>
        hjnot (List.mem_append.mpr (Or.inl h))
      have hjnot2 : j ∉ optVisit s (getN s j).child_2 := fun h =>
        hjnot (List.mem_append.mpr (Or.inr h))
      have hmem1 : ∀ i, i ∈ optVisit s (getN s j).child_1 → i ∈ visit s j := by
        intro i hi
        rw [hvis]
        exact List.mem_cons_of_mem j (List.mem_append.mpr (Or.inl hi))
      have hmem2 : ∀ i, i ∈ optVisit s (getN s j).child_2 → i ∈ visit s j := by
        intro i hi
        rw [hvis]
        exact List.mem_cons_of_mem j (List.mem_append.mpr (Or.inr hi))
      have hne1 : ∀ i, i ∈ optVisit s (getN s j).child_1 → i ≠ j := by
        intro i hi hij
        exact hjnot1 (hij ▸ hi)
      have hne2 : ∀ i, i ∈ optVisit s (getN s j).child_2 → i ≠ j := by
        intro i hi hij
        exact hjnot2 (hij ▸ hi)
      have hnotin2 : ∀ i, i ∈ optVisit s (getN s j).child_1 →
          i ∉ optVisit s (getN s j).child_2 := fun i h1 h2 => hdisj h1 h2
      have hnotin1 : ∀ i, i ∈ optVisit s (getN s j).child_2 →
          i ∉ optVisit s (getN s j).child_1 := fun i h2 h1 => hdisj h1 h2
      have hgett1 : ∀ i, i ≠ j → getN t1 i = getN s i := by
        intro i hij
        rw [ht1]
        exact getN_set_ne s i j _ hij
      -- first recursive call, on the first child branch
      have hov1 : optVisit t1 (getN t1 j).child_1 =
          optVisit s (getN s j).child_1 := by
        rw [hc1, optVisit_shapeEq hsh1]
      obtain ⟨A1, B1⟩ := ih t1 j (getN t1 j).child_1 (getN t1 j).grad_child_1
        (e * (getN s j).grad_child_1.getD 0) hw1
        (by
          rw [hc1]
          intro c hcc
          have := optBound_lt (hw j).1 hcc
          omega)
        (by
          rw [hc1, hlen1]
          intro c hcc
          have := optBound_lt (hw j).1 hcc
          omega)
        (by rw [hov1]; exact hnd1)
        (by
          rw [hov1]
          intro i hi
          rw [hgett1 i (hne1 i hi), hc1, oChain_shapeEq hsh1,
            hg i (hmem1 i hi), oChain_some_eq,
            chainDeriv_branch_1 hw hi (hne1 i hi) (hnotin2 i hi)]
          ring)
      rw [← ht2] at A1 B1
      rw [hov1] at A1 B1
      rw [hc1, hgc1, hget1jgrad] at A1
      simp only [oDepth_shapeEq hsh1, oChain_shapeEq hsh1] at A1
      -- facts about t2
      have hsh2 : shapeEqS t2 t1 := by
        rw [ht2]
        exact traverse_shapeEq f t1 j _ _
      have hsh2s : shapeEqS t2 s := shapeEqS_trans hsh2 hsh1
      have hw2 : Wf t2 := wf_shapeEq hsh2s hw
      have hlen2 : t2.length = s.length := by
        rw [ht2, traverse_length, hlen1]
      have hc2 : (getN t2 j).child_2 = (getN s j).child_2 := (hsh2s j).2.2.1
      have hgc2 : (getN t2 j).grad_child_2 = (getN s j).grad_child_2 :=
        (hsh2s j).2.2.2.2
      have hget2j : getN t2 j = getN t1 j := B1 j hjnot1
      have hget2jgrad : (getN t2 j).grad =
          e + (getN s p).grad * cg.getD 0 := by
        rw [hget2j, hget1jgrad]
      -- second recursive call, on the second child branch
      have hov2 : optVisit t2 (getN t2 j).child_2 =
          optVisit s (getN s j).child_2 := by
        rw [hc2, optVisit_shapeEq hsh2s]
      obtain ⟨A2, B2⟩ := ih t2 j (getN t2 j).child_2 (getN t2 j).grad_child_2
        (e * (getN s j).grad_child_2.getD 0) hw2
        (by
          rw [hc2]
          intro c hcc
          have := optBound_lt (hw j).2 hcc
          omega)
        (by
          rw [hc2, hlen2]
          intro c hcc
          have := optBound_lt (hw j).2 hcc
          omega)
        (by rw [hov2]; exact hnd2)
        (by
          rw [hov2]
          intro i hi
          rw [B1 i (hnotin1 i hi), hgett1 i (hne2 i hi), hc2,
            oChain_shapeEq hsh2s, hg i (hmem2 i hi), oChain_some_eq,
            chainDeriv_branch_2 hw hi (hne2 i hi) (hnotin1 i hi)]
          ring)
      rw [← ht3] at A2 B2
      rw [hov2] at A2 B2
      rw [hc2, hgc2, hget2jgrad] at A2
      simp only [oDepth_shapeEq hsh2s, oChain_shapeEq hsh2s] at A2
      -- assemble the two parts
      constructor
      · intro i hi
        rw [optVisit_some_eq] at hi
        rw [oDepth_some_eq, oChain_some_eq]
        rw [hvis] at hi
        rcases List.mem_cons.mp hi with rfl | hi'
        · rw [B2 i hjnot2, hget2jgrad, depth_self, chainDeriv_self]
          push_cast
          ring
        · rcases List.mem_append.mp hi' with h1 | h2
          · rw [B2 i (hnotin2 i h1), A1 i h1,
              depth_branch_1 hw h1 (hne1 i h1),
              chainDeriv_branch_1 hw h1 (hne1 i h1) (hnotin2 i h1)]
            push_cast
            ring
          · rw [A2 i h2, depth_branch_2 hw h2 (hne2 i h2) (hnotin1 i h2),
              chainDeriv_branch_2 hw h2 (hne2 i h2) (hnotin1 i h2)]
            push_cast
            ring
      · intro i hi
        rw [optVisit_some_eq, hvis] at hi
        simp only [List.mem_cons, List.mem_append] at hi
        push_neg at hi
        obtain ⟨hij, h1, h2⟩ := hi
        rw [B2 i h2, B1 i h1, hgett1 i hij]

theorem backward_eq (s : State) (r : Nat) :
    Value.backward s r =
      Value.traverse s.length
        (Value.traverse s.length (backwardSet s r) r
          (getN (backwardSet s r) r).child_1
          (getN (backwardSet s r) r).grad_child_1)
        r
        (getN (Value.traverse s.length (backwardSet s r) r
          (getN (backwardSet s r) r).child_1
          (getN (backwardSet s r) r).grad_child_1) r).child_2
        (getN (Value.traverse s.length (backwardSet s r) r
          (getN (backwardSet s r) r).child_1
          (getN (backwardSet s r) r).grad_child_1) r).grad_child_2 := rfl

theorem backward_tree {s : State} (hw : Wf s) {r : Nat} (w : ℚ)
    (hr : r < s.length) (hnd : (visit s r).Nodup)
    (hg : ∀ i ∈ visit s r, i ≠ r → (getN s i).grad = w * chainDeriv s r i) :
    (∀ i ∈ visit s r, (getN (Value.backward s r) i).grad =
        ((depth s r i : ℚ) * w + 1) * chainDeriv s r i) ∧
    (∀ i, i ∉ visit s r → getN (Value.backward s r) i = getN s i) := by
  rw [backward_eq]
  set u1 := backwardSet s r with hu1
  set u2 := Value.traverse s.length u1 r (getN u1 r).child_1
    (getN u1 r).grad_child_1 with hu2
  set u3 := Value.traverse s.length u2 r (getN u2 r).child_2
    (getN u2 r).grad_child_2 with hu3
  have hsh1 : shapeEqS u1 s := by
    rw [hu1]
    exact shapeEqS_set_grad s r 1
  have hw1 : Wf u1 := wf_shapeEq hsh1 hw
  have hlen1 : u1.length = s.length := by
    rw [hu1]
    simp [backwardSet]
  have hget1r : getN u1 r = { getN s r with grad := 1 } := by
    rw [hu1]
    exact getN_set_self s r _ hr
  have hget1rgrad : (getN u1 r).grad = 1 := by rw [hget1r]
  have hc1 : (getN u1 r).child_1 = (getN s r).child_1 := by rw [hget1r]
  have hgc1 : (getN u1 r).grad_child_1 = (getN s r).grad_child_1 := by
    rw [hget1r]
  have hvis : visit s r =
      r :: (optVisit s (getN s r).child_1 ++
        optVisit s (getN s r).child_2) := visit_eq hw r
  have hnd' : (r :: (optVisit s (getN s r).child_1 ++
      optVisit s (getN s r).child_2)).Nodup := by
    rw [← hvis]
    exact hnd
  have hjnot : r ∉ optVisit s (getN s r).child_1 ++
      optVisit s (getN s r).child_2 := (List.nodup_cons.mp hnd').1
  have hndt := (List.nodup_cons.mp hnd').2
  have hnd1 : (optVisit s (getN s r).child_1).Nodup :=
    (List.nodup_append.mp hndt).1
  have hnd2 : (optVisit s (getN s r).child_2).Nodup :=
    (List.nodup_append.mp hndt).2.1
  have hdisj := (List.nodup_append.mp hndt).2.2
  have hjnot1 : r ∉ optVisit s (getN s r).child_1 := fun h =>
    hjnot (List.mem_append.mpr (Or.inl h))
  have hjnot2 : r ∉ optVisit s (getN s r).child_2 := fun h =>
    hjnot (List.mem_append.mpr (Or.inr h))
  have hmem1 : ∀ i, i ∈ optVisit s (getN s r).child_1 → i ∈ visit s r := by
    intro i hi
    rw [hvis]
    exact List.mem_cons_of_mem r (List.mem_append.mpr (Or.inl hi))
  have hmem2 : ∀ i, i ∈ optVisit s (getN s r).child_2 → i ∈ visit s r := by
    intro i hi
    rw [hvis]
    exact List.mem_cons_of_mem r (List.mem_append.mpr (Or.inr hi))
  have hne1 : ∀ i, i ∈ optVisit s (getN s r).child_1 → i ≠ r := by
    intro i hi hir
    exact hjnot1 (hir ▸ hi)
  have hne2 : ∀ i, i ∈ optVisit s (getN s r).child_2 → i ≠ r := by
    intro i hi hir
    exact hjnot2 (hir ▸ hi)
  have hnotin2 : ∀ i, i ∈ optVisit s (getN s r).child_1 →
      i ∉ optVisit s (getN s r).child_2 := fun i h1 h2 => hdisj h1 h2
  have hnotin1 : ∀ i, i ∈ optVisit s (getN s r).child_2 →
      i ∉ optVisit s (getN s r).child_1 := fun i h2 h1 => hdisj h1 h2
  have hgetu1 : ∀ i, i ≠ r → getN u1 i = getN s i := by
    intro i hir
    rw [hu1]
    exact getN_set_ne s i r _ hir
  have hov1 : optVisit u1 (getN u1 r).child_1 =
      optVisit s (getN s r).child_1 := by
    rw [hc1, optVisit_shapeEq hsh1]
  obtain ⟨A1, B1⟩ := traverse_general s.length u1 r (getN u1 r).child_1
    (getN u1 r).grad_child_1 (w * (getN s r).grad_child_1.getD 0) hw1
    (by
      rw [hc1]
      intro c hcc
      have := optBound_lt (hw r).1 hcc
      omega)
    (by
      rw [hc1, hlen1]
      intro c hcc
      have := optBound_lt (hw r).1 hcc
      omega)
    (by rw [hov1]; exact hnd1)
    (by
      rw [hov1]
      intro i hi
      rw [hgetu1 i (hne1 i hi), hc1, oChain_shapeEq hsh1,
        hg i (hmem1 i hi) (hne1 i hi),
        chainDeriv_branch_1 hw hi (hne1 i hi) (hnotin2 i hi)]
      ring)
  rw [← hu2] at A1 B1
  rw [hov1] at A1 B1
  rw [hc1, hgc1, hget1rgrad] at A1
  simp only [oDepth_shapeEq hsh1, oChain_shapeEq hsh1] at A1
  have hsh2 : shapeEqS u2 u1 := by
    rw [hu2]
    exact traverse_shapeEq s.length u1 r _ _
  have hsh2s : shapeEqS u2 s := shapeEqS_trans hsh2 hsh1
  have hw2 : Wf u2 := wf_shapeEq hsh2s hw
  have hlen2 : u2.length = s.length := by
    rw [hu2, traverse_length, hlen1]
  have hc2 : (getN u2 r).child_2 = (getN s r).child_2 := (hsh2s r).2.2.1
  have hgc2 : (getN u2 r).grad_child_2 = (getN s r).grad_child_2 :=
    (hsh2s r).2.2.2.2
  have hget2r : getN u2 r = getN u1 r := B1 r hjnot1
  have hget2rgrad : (getN u2 r).grad = 1 := by
    rw [hget2r, hget1rgrad]
  have hov2 : optVisit u2 (getN u2 r).child_2 =
      optVisit s (getN s r).child_2 := by
    rw [hc2, optVisit_shapeEq hsh2s]
  obtain ⟨A2, B2⟩ := traverse_general s.length u2 r (getN u2 r).child_2
    (getN u2 r).grad_child_2 (w * (getN s r).grad_child_2.getD 0) hw2
    (by
      rw [hc2]
      intro c hcc
      have := optBound_lt (hw r).2 hcc
      omega)
    (by
      rw [hc2, hlen2]
      intro c hcc
      have := optBound_lt (hw r).2 hcc
      omega)
    (by rw [hov2]; exact hnd2)
    (by
      rw [hov2]
      intro i hi
      rw [B1 i (hnotin1 i hi), hgetu1 i (hne2 i hi), hc2,
        oChain_shapeEq hsh2s, hg i (hmem2 i hi) (hne2 i hi),
        chainDeriv_branch_2 hw hi (hne2 i hi) (hnotin1 i hi)]
      ring)
  rw [← hu3] at A2 B2
  rw [hov2] at A2 B2
  rw [hc2, hgc2, hget2rgrad] at A2
  simp only [oDepth_shapeEq hsh2s, oChain_shapeEq hsh2s] at A2
  constructor
  · intro i hi
    rw [hvis] at hi
    rcases List.mem_cons.mp hi with rfl | hi'
    · rw [B2 i hjnot2, hget2rgrad, depth_self, chainDeriv_self]
      push_cast
      ring
    · rcases List.mem_append.mp hi' with h1 | h2
      · rw [B2 i (hnotin2 i h1), A1 i h1,
          depth_branch_1 hw h1 (hne1 i h1),
          chainDeriv_branch_1 hw h1 (hne1 i h1) (hnotin2 i h1)]
        push_cast
        ring
      · rw [A2 i h2, depth_branch_2 hw h2 (hne2 i h2) (hnotin1 i h2),
          chainDeriv_branch_2 hw h2 (hne2 i h2) (hnotin1 i h2)]
        push_cast
        ring
  · intro i hi
    rw [hvis] at hi
    simp only [List.mem_cons, List.mem_append] at hi
    push_neg at hi
    obtain ⟨hir, h1, h2⟩ := hi
    rw [B2 i h2, B1 i h1, hgetu1 i hir]

theorem visit_shapeEq {s t : State} (h : shapeEqS s t) (j : Nat) :
    visit s j = visit t j := visitF_shapeEq h (j + 1) j

theorem chainDeriv_shapeEq {s t : State} (h : shapeEqS s t) (r i : Nat) :
    chainDeriv s r i = chainDeriv t r i := chainDerivF_shapeEq h (r + 1) r i

theorem depth_shapeEq {s t : State} (h : shapeEqS s t) (r i : Nat) :
    depth s r i = depth t r i := depthF_shapeEq h (r + 1) r i

/-- C1: on a tree-shaped expression (each node reachable from the root
occurs on exactly one operand path, i.e. the reference-path list is
duplicate-free), with all gradients below the root still at their
initial `0`, calling `backward` on the root gives every reachable node
the gradient prescribed by the chain rule over the recorded local
derivatives: the sum over all operand paths from the root of the
products of the local derivatives along the path. -/
theorem backward_tree_chain_rule {s : State} {r : Nat} (hw : Wf s)
    (hr : r < s.length) (hnd : (visit s r).Nodup)
    (hg : ∀ i ∈ visit s r, i ≠ r → (getN s i).grad = 0) :
    ∀ i ∈ visit s r,
      (getN (Value.backward s r) i).grad = chainDeriv s r i := by
  intro i hi
  have h := (backward_tree hw 0 hr hnd (by
    intro i hi hir
    rw [hg i hi hir]
    ring)).1 i hi
  rw [h]
  ring

/-- Witness for C1 at the specification's concrete scenario
`a = 2, b = 3, c = 4, out = (a + b) * c`: the hypotheses hold and the
gradient of the leaf `a` after `backward` equals its chain-rule
derivative. -/
theorem backward_tree_chain_rule_witness :
    (Wf sScen ∧ 4 < sScen.length ∧ (visit sScen 4).Nodup ∧
      (∀ i ∈ visit sScen 4, i ≠ 4 → (getN sScen i).grad = 0)) ∧
    (getN (Value.backward sScen 4) 0).grad = chainDeriv sScen 4 0 := by
  have hw : Wf sScen := wf_of_bounded sScen (by decide)
  have hr : 4 < sScen.length := by decide
  have hnd : (visit sScen 4).Nodup := by decide
  have hg : ∀ i ∈ visit sScen 4, i ≠ 4 → (getN sScen i).grad = 0 := by decide
  exact ⟨⟨hw, hr, hnd, hg⟩,
    backward_tree_chain_rule hw hr hnd hg 0 (by decide)⟩

/-- C2: in the concrete graph `sShared` (leaf `b`, `t = b + b`,
`u = -t`, `v = -t`, `out = u + v`), the non-leaf node `t` (index 1) is
an operand of the two distinct downstream nodes `u` (index 2) and `v`
(index 3); after `backward` on the output, the gradient of the leaf
`b` is `-6`, while the true chain-rule derivative of the output with
respect to `b` over the recorded local derivatives is `-4`. -/
theorem traverse_shared_node_incorrect :
    (getN sShared 1).child_1 = some 0 ∧
    (getN sShared 2).child_1 = some 1 ∧
    (getN sShared 3).child_1 = some 1 ∧
    (2 : Nat) ≠ 3 ∧
    (getN (Value.backward sShared 4) 0).grad = -6 ∧
    chainDeriv sShared 4 0 = -4 ∧
    ((-6 : ℚ) ≠ -4) := by
  refine ⟨rfl, rfl, rfl, by decide, ?_, ?_, by norm_num⟩
  · norm_num [Value.backward, Value.traverse, getN, sShared, leafN]
  · norm_num [chainDeriv, chainDerivF, getN, sShared, leafN]

/-- Counterexample for C10 as stated: on the two-level chain `sChain`
(leaf `a`, `t = -a`, `out = -t`), the first `backward` leaves the leaf
with gradient `1`; a second `backward` leaves it with gradient `3`,
not the doubled value `2 * 1`. -/
theorem double_backward_not_doubled :
    (getN (Value.backward sChain 2) 0).grad = 1 ∧
    (getN (Value.backward (Value.backward sChain 2) 2) 0).grad = 3 ∧
    ((3 : ℚ) ≠ 2 * 1) := by
  refine ⟨?_, ?_, by norm_num⟩
  · norm_num [Value.backward, Value.traverse, getN, sChain, leafN]
  · norm_num [Value.backward, Value.traverse, getN, sChain, leafN]

/-- C10 (amended): on a tree-shaped expression with fresh gradients, a
first `backward` gives every reachable node its chain-rule gradient;
calling `backward` again re-assigns the root's gradient to `1.0` and
adds compounded (not single) contributions on top everywhere else, so
a node at depth `k` below the root ends with `(k + 1)` times its
single-pass gradient — only the root's direct operands are exactly
doubled, deeper nodes gain more. -/
theorem double_backward_compounds {s : State} {r : Nat} (hw : Wf s)
    (hr : r < s.length) (hnd : (visit s r).Nodup)
    (hg : ∀ i ∈ visit s r, i ≠ r → (getN s i).grad = 0) :
    (∀ i ∈ visit s r,
        (getN (Value.backward s r) i).grad = chainDeriv s r i) ∧
    (∀ i ∈ visit s r,
        (getN (Value.backward (Value.backward s r) r) i).grad =
          ((depth s r i : ℚ) + 1) * chainDeriv s r i) := by
  have hsh : shapeEqS (Value.backward s r) s := backward_shapeEq s r
  have hw' : Wf (Value.backward s r) := wf_shapeEq hsh hw
  have hr' : r < (Value.backward s r).length := by
    rw [backward_length]
    exact hr
  have hvis' : visit (Value.backward s r) r = visit s r := visit_shapeEq hsh r
  have hnd' : (visit (Value.backward s r) r).Nodup := by
    rw [hvis']
    exact hnd
  have P := backward_tree hw 0 hr hnd (by
    intro i hi hir
    rw [hg i hi hir]
    ring)
  have hfirst : ∀ i ∈ visit s r,
      (getN (Value.backward s r) i).grad = chainDeriv s r i := by
    intro i hi
    rw [P.1 i hi]
    ring
  have hg' : ∀ i ∈ visit (Value.backward s r) r, i ≠ r →
      (getN (Value.backward s r) i).grad =
        1 * chainDeriv (Value.backward s r) r i := by
    intro i hi hir
    rw [hvis'] at hi
    rw [hfirst i hi, chainDeriv_shapeEq hsh r i]
    ring
  have Q := backward_tree hw' 1 hr' hnd' hg'
  refine ⟨hfirst, ?_⟩
  intro i hi
  have hi' : i ∈ visit (Value.backward s r) r := by
    rw [hvis']
    exact hi
  rw [Q.1 i hi', depth_shapeEq hsh r i, chainDeriv_shapeEq hsh r i]
  ring

/-- Witness for the amended C10 on the two-level chain `sChain`: the
hypotheses hold, and the leaf at depth `2` ends with `(2 + 1)` times
its single-pass gradient after the second `backward`. -/
theorem double_backward_compounds_witness :
    (Wf sChain ∧ 2 < sChain.length ∧ (visit sChain 2).Nodup ∧
      (∀ i ∈ visit sChain 2, i ≠ 2 → (getN sChain i).grad = 0)) ∧
    (getN (Value.backward (Value.backward sChain 2) 2) 0).grad =
      ((depth sChain 2 0 : ℚ) + 1) * chainDeriv sChain 2 0 := by
  have hw : Wf sChain := wf_of_bounded sChain (by decide)
  have hr : 2 < sChain.length := by decide
  have hnd : (visit sChain 2).Nodup := by decide
  have hg : ∀ i ∈ visit sChain 2, i ≠ 2 → (getN sChain i).grad = 0 := by
    decide
  exact ⟨⟨hw, hr, hnd, hg⟩,
    (double_backward_compounds hw hr hnd hg).2 0 (by decide)⟩

/-- Counterexample for C3: applying the power operation to a node with
a node-valued exponent raises a type failure (modelled as
`Except.error`); no binary node with value `x ^ y` is returned. -/
theorem pow_node_exponent_fails :
    Value.pow pf0 sLeaves 0 (PowArg.node 1) = Except.error () := rfl

/-- C3 (amended): the power operation supports only plain-number
exponents.  With a plain number `c` it returns a unary node whose data
is `x ** c` and whose single recorded local derivative is
`c * x ** (c - 1)`, with the second operand and derivative slots
empty; with a node-valued exponent the underlying float `**` raises
`TypeError` and no node is created. -/
theorem pow_plain_exponent_only (powFn : ℚ → ℚ → ℚ) (s : State) (a : Nat)
    (c : ℚ) (k : Nat) :
    Value.pow powFn s a (PowArg.const c) =
      Except.ok (s ++ [{ data := powFn (getN s a).data c, grad := 0,
                         child_1 := some a, child_2 := none,
                         grad_child_1 :=
                           some (c * powFn (getN s a).data (c - 1)),
                         grad_child_2 := none }], s.length) ∧
    Value.pow powFn s a (PowArg.node k) = Except.error () :=
  ⟨rfl, rfl⟩

/-- C4: for every operation the data of the returned node equals the
mathematical evaluation of the operation on the operands' data at call
time (with `tanhFn` and `powFn` standing for the external `math.tanh`
and float `**` primitives). -/
theorem forward_values (tanhFn : ℚ → ℚ) (powFn : ℚ → ℚ → ℚ) (s : State)
    (a b : Nat) (c : ℚ) :
    (getN (Value.add s a b).1 (Value.add s a b).2).data =
      (getN s a).data + (getN s b).data ∧
    (getN (Value.sub s a b).1 (Value.sub s a b).2).data =
      (getN s a).data - (getN s b).data ∧
    (getN (Value.mul s a b).1 (Value.mul s a b).2).data =
      (getN s a).data * (getN s b).data ∧
    ((getN s b).data ≠ 0 →
      Value.truediv s a b = Except.ok
        (s ++ [{ data := (getN s a).data / (getN s b).data, grad := 0,
                 child_1 := some a, child_2 := some b,
                 grad_child_1 := some (1 / (getN s b).data),
                 grad_child_2 :=
                   some (-(getN s a).data / (getN s b).data ^ 2) }],
         s.length)) ∧
    (getN (s ++ [{ data := powFn (getN s a).data c, grad := 0,
                   child_1 := some a, child_2 := none,
                   grad_child_1 :=
                     some (c * powFn (getN s a).data (c - 1)),
                   grad_child_2 := none }]) s.length).data =
      powFn (getN s a).data c ∧
    (getN (Value.neg s a).1 (Value.neg s a).2).data = -(getN s a).data ∧
    (getN (Value.tanh tanhFn s a).1 (Value.tanh tanhFn s a).2).data =
      tanhFn (getN s a).data ∧
    (getN (Value.relu s a).1 (Value.relu s a).2).data =
      (if 0 < (getN s a).data then (getN s a).data else 0) := by
  refine ⟨?_, ?_, ?_, ?_, ?_, ?_, ?_, ?_⟩
  · simp [Value.add, getN_append_self]
  · simp [Value.sub, getN_append_self]
  · simp [Value.mul, getN_append_self]
  · intro h
    have h2 : (getN s b).data ^ 2 ≠ 0 := pow_ne_zero 2 h
    simp only [Value.truediv, pydiv, if_neg h, if_neg h2, one_div]
    rfl
  · simp [getN_append_self]
  · simp [Value.neg, getN_append_self]
  · simp [Value.tanh, getN_append_self]
  · simp [Value.relu, getN_append_self]

theorem wf_append {s : State} (hw : Wf s) {v : Value}
    (h1 : optBound v.child_1 s.length) (h2 : optBound v.child_2 s.length) :
    Wf (s ++ [v]) := by
  intro j
  rcases Nat.lt_trichotomy j s.length with hj | hj | hj
  · rw [getN_append_lt s v j hj]
    exact hw j
  · subst hj
    rw [getN_append_self]
    exact ⟨h1, h2⟩
  · rw [getN_of_length_le]
    · exact ⟨trivial, trivial⟩
    · simp
      omega

theorem leafN_child_1 (d : ℚ) : (leafN d).child_1 = none := rfl

theorem leafN_child_2 (d : ℚ) : (leafN d).child_2 = none := rfl

theorem leafN_grad (d : ℚ) : (leafN d).grad = 0 := rfl

theorem visit_leaf {t : State} (hw : Wf t) {a : Nat} {x : ℚ}
    (ha : getN t a = leafN x) : visit t a = [a] := by
  rw [visit_eq hw a, ha, leafN_child_1, leafN_child_2]
  rfl

theorem backward_binary_leaves {s : State} (hw : Wf s) {a b : Nat}
    {x y : ℚ} (d g1 g2 : ℚ) (hab : a ≠ b) (hal : a < s.length)
    (hbl : b < s.length) (ha : getN s a = leafN x)
    (hb : getN s b = leafN y) :
    (getN (Value.backward
        (s ++ [{ data := d, grad := 0, child_1 := some a,
                 child_2 := some b, grad_child_1 := some g1,
                 grad_child_2 := some g2 }]) s.length) a).grad = g1 ∧
    (getN (Value.backward
        (s ++ [{ data := d, grad := 0, child_1 := some a,
                 child_2 := some b, grad_child_1 := some g1,
                 grad_child_2 := some g2 }]) s.length) b).grad = g2 := by
  set t := s ++ [{ data := d, grad := 0, child_1 := some a,
                   child_2 := some b, grad_child_1 := some g1,
                   grad_child_2 := some g2 }] with htdef
  have hwt : Wf t := by
    rw [htdef]
    exact wf_append hw hal hbl
  have hlen : s.length < t.length := by
    rw [htdef]
    simp
  have hgt : getN t s.length = { data := d, grad := 0, child_1 := some a,
                                 child_2 := some b, grad_child_1 := some g1,
                                 grad_child_2 := some g2 } := by
    rw [htdef]
    exact getN_append_self s _
  have hga : getN t a = leafN x := by
    rw [htdef, getN_append_lt s _ a hal]
    exact ha
  have hgb : getN t b = leafN y := by
    rw [htdef, getN_append_lt s _ b hbl]
    exact hb
  have hva : visit t a = [a] := visit_leaf hwt hga
  have hvb : visit t b = [b] := visit_leaf hwt hgb
  have hvt : visit t s.length = [s.length, a, b] := by
    rw [visit_eq hwt s.length, hgt]
    show s.length :: (visit t a ++ visit t b) = _
    rw [hva, hvb]
    rfl
  have hnd : (visit t s.length).Nodup := by
    rw [hvt]
    apply List.nodup_cons.mpr
    constructor
    · simp only [List.mem_cons, List.not_mem_nil, or_false,
        List.mem_singleton]
      push_neg
      exact ⟨Nat.ne_of_gt hal, Nat.ne_of_gt hbl⟩
    · apply List.nodup_cons.mpr
      constructor
      · simp only [List.mem_singleton]
        exact hab
      · exact List.nodup_singleton b
  have hg0 : ∀ i ∈ visit t s.length, i ≠ s.length → (getN t i).grad = 0 := by
    intro i hi hne
    rw [hvt] at hi
    simp only [List.mem_cons, List.not_mem_nil, or_false,
      List.mem_singleton] at hi
    rcases hi with rfl | rfl | rfl
    · exact absurd rfl hne
    · rw [hga, leafN_grad]
    · rw [hgb, leafN_grad]
  have P := backward_tree hwt 0 hlen hnd (by
    intro i hi hne
    rw [hg0 i hi hne]
    ring)
  have hmema : a ∈ visit t s.length := by
    rw [hvt]
    simp
  have hmemb : b ∈ visit t s.length := by
    rw [hvt]
    simp
  have hnab : a ∉ visit t b := by
    rw [hvb]
    simp [hab]
  have hnba : b ∉ visit t a := by
    rw [hva]
    simp only [List.mem_singleton]
    exact fun h => hab h.symm
  have hca : chainDeriv t s.length a = g1 := by
    rw [chainDeriv_eq hwt s.length a, if_neg (Nat.ne_of_lt hal), hgt]
    show g1 * chainDeriv t a a + g2 * chainDeriv t b a = g1
    rw [chainDeriv_self, chainDeriv_eq_zero hnab]
    ring
  have hcb : chainDeriv t s.length b = g2 := by
    rw [chainDeriv_eq hwt s.length b, if_neg (Nat.ne_of_lt hbl), hgt]
    show g1 * chainDeriv t a b + g2 * chainDeriv t b b = g2
    rw [chainDeriv_self, chainDeriv_eq_zero hnba]
    ring
  constructor
  · rw [P.1 a hmema, hca]
    ring
  · rw [P.1 b hmemb, hcb]
    ring

/-- C5: each binary operation applied to two distinct fresh leaves
`a` (data `x`) and `b` (data `y`) in a well-formed heap, followed by
`backward` on the result, sets the leaves' gradients to the analytic
partial derivatives: add `(1, 1)`, sub `(1, -1)`, mul `(y, x)`, and,
when `y` is nonzero, div `(1 / y, -x / y²)`. -/
theorem binary_ops_leaf_gradients {s : State} (hw : Wf s) {a b : Nat}
    {x y : ℚ} (hab : a ≠ b) (hal : a < s.length) (hbl : b < s.length)
    (ha : getN s a = leafN x) (hb : getN s b = leafN y) :
    ((getN (Value.backward (Value.add s a b).1 (Value.add s a b).2) a).grad
        = 1 ∧
      (getN (Value.backward (Value.add s a b).1 (Value.add s a b).2) b).grad
        = 1) ∧
    ((getN (Value.backward (Value.sub s a b).1 (Value.sub s a b).2) a).grad
        = 1 ∧
      (getN (Value.backward (Value.sub s a b).1 (Value.sub s a b).2) b).grad
        = -1) ∧
    ((getN (Value.backward (Value.mul s a b).1 (Value.mul s a b).2) a).grad
        = y ∧
      (getN (Value.backward (Value.mul s a b).1 (Value.mul s a b).2) b).grad
        = x) ∧
    (y ≠ 0 → ∀ r, Value.truediv s a b = Except.ok r →
      (getN (Value.backward r.1 r.2) a).grad = 1 / y ∧
      (getN (Value.backward r.1 r.2) b).grad = -x / y ^ 2) := by
  have hyd : (getN s b).data = y := by rw [hb]; rfl
  have hxd : (getN s a).data = x := by rw [ha]; rfl
  refine ⟨?_, ?_, ?_, ?_⟩
  · exact backward_binary_leaves hw _ 1 1 hab hal hbl ha hb
  · exact backward_binary_leaves hw _ 1 (-1) hab hal hbl ha hb
  · have H := backward_binary_leaves hw ((getN s a).data * (getN s b).data)
      ((getN s b).data) ((getN s a).data) hab hal hbl ha hb
    constructor
    · rw [← hyd]
      exact H.1
    · rw [← hxd]
      exact H.2
  · intro hy r hr
    have hy' : (getN s b).data ≠ 0 := by
      rw [hyd]
      exact hy
    have hy2 : (getN s b).data ^ 2 ≠ 0 := pow_ne_zero 2 hy'
    have heq : Value.truediv s a b = Except.ok
        (s ++ [{ data := (getN s a).data / (getN s b).data, grad := 0,
                 child_1 := some a, child_2 := some b,
                 grad_child_1 := some (1 / (getN s b).data),
                 grad_child_2 :=
                   some (-(getN s a).data / (getN s b).data ^ 2) }],
         s.length) := by
      simp only [Value.truediv, pydiv, if_neg hy', if_neg hy2, one_div]
      rfl
    rw [heq] at hr
    have hr' := (Except.ok.injEq _ _).mp hr.symm
    subst hr'
    have H := backward_binary_leaves hw ((getN s a).data / (getN s b).data)
      (1 / (getN s b).data) (-(getN s a).data / (getN s b).data ^ 2)
      hab hal hbl ha hb
    constructor
    · rw [← hyd]
      exact H.1
    · rw [← hxd, ← hyd]
      exact H.2

/-- Witness for C4: multiplying leaves with data `2` and `3` yields a
node with data `6`; relu of a leaf with data `0` yields data `0`; the
division hypothesis holds at data `3`. -/
theorem forward_values_witness :
    ((getN sLeaves 1).data ≠ 0) ∧
    (getN (Value.mul sLeaves 0 1).1 (Value.mul sLeaves 0 1).2).data = 6 ∧
    (getN (Value.relu sLeaf0 0).1 (Value.relu sLeaf0 0).2).data = 0 := by
  refine ⟨by norm_num [getN, sLeaves, leafN], ?_, ?_⟩
  · rw [(forward_values tf0 pf0 sLeaves 0 1 0).2.2.1]
    norm_num [getN, sLeaves, leafN]
  · rw [(forward_values tf0 pf0 sLeaf0 0 0 0).2.2.2.2.2.2.2]
    norm_num [getN, sLeaf0, leafN]

/-- Witness for C5 at `a = 2`, `b = 3`: dividing the two leaves and
propagating gives `a.gradient = 1/3` and `b.gradient = -2/9`. -/
theorem binary_ops_leaf_gradients_witness :
    (Wf sLeaves ∧ (0 : Nat) ≠ 1 ∧ 0 < sLeaves.length ∧ 1 < sLeaves.length ∧
      getN sLeaves 0 = leafN 2 ∧ getN sLeaves 1 = leafN 3 ∧ (3 : ℚ) ≠ 0 ∧
      Value.truediv sLeaves 0 1 = Except.ok dEx) ∧
    ((getN (Value.backward dEx.1 dEx.2) 0).grad = 1 / 3 ∧
      (getN (Value.backward dEx.1 dEx.2) 1).grad = -2 / 3 ^ 2) := by
  have hw : Wf sLeaves := wf_of_bounded sLeaves (by decide)
  have hab : (0 : Nat) ≠ 1 := by decide
  have hal : 0 < sLeaves.length := by decide
  have hbl : 1 < sLeaves.length := by decide
  have ha : getN sLeaves 0 = leafN 2 := by decide
  have hb : getN sLeaves 1 = leafN 3 := by decide
  have hy : (3 : ℚ) ≠ 0 := by norm_num
  have hdiv : Value.truediv sLeaves 0 1 = Except.ok dEx := by
    norm_num [Value.truediv, pydiv, getN, sLeaves, leafN, dEx]
    rfl
  exact ⟨⟨hw, hab, hal, hbl, ha, hb, hy, hdiv⟩,
    (binary_ops_leaf_gradients hw hab hal hbl ha hb).2.2.2 hy dEx hdiv⟩

theorem truediv_ok {s : State} {x y : Nat} {r : State × Nat}
    (h : Value.truediv s x y = Except.ok r) :
    (getN s y).data ≠ 0 ∧
    r = (s ++ [{ data := (getN s x).data / (getN s y).data, grad := 0,
                 child_1 := some x, child_2 := some y,
                 grad_child_1 := some (1 / (getN s y).data),
                 grad_child_2 :=
                   some (-(getN s x).data / (getN s y).data ^ 2) }],
         s.length) := by
  by_cases h0 : (getN s y).data = 0
  · rw [show Value.truediv s x y = Except.error () from by
      simp only [Value.truediv, pydiv, if_pos h0]
      rfl] at h
    exact absurd h (by simp)
  · have h2 : (getN s y).data ^ 2 ≠ 0 := pow_ne_zero 2 h0
    refine ⟨h0, ?_⟩
    rw [show Value.truediv s x y = Except.ok
        (s ++ [{ data := (getN s x).data / (getN s y).data, grad := 0,
                 child_1 := some x, child_2 := some y,
                 grad_child_1 := some (1 / (getN s y).data),
                 grad_child_2 :=
                   some (-(getN s x).data / (getN s y).data ^ 2) }],
         s.length) from by
      simp only [Value.truediv, pydiv, if_neg h0, if_neg h2, one_div]
      rfl] at h
    exact ((Except.ok.injEq _ _).mp h).symm

theorem pow_ok {pf : ℚ → ℚ → ℚ} {s : State} {x : Nat} {c : ℚ}
    {r : State × Nat} (h : Value.pow pf s x (PowArg.const c) = Except.ok r) :
    r = (s ++ [{ data := pf (getN s x).data c, grad := 0,
                 child_1 := some x, child_2 := none,
                 grad_child_1 := some (c * pf (getN s x).data (c - 1)),
                 grad_child_2 := none }], s.length) := by
  have h' : Except.ok (s ++ [{ data := pf (getN s x).data c, grad := 0,
                               child_1 := some x, child_2 := none,
                               grad_child_1 :=
                                 some (c * pf (getN s x).data (c - 1)),
                               grad_child_2 := none }], s.length) =
      Except.ok r := h
  exact ((Except.ok.injEq _ _).mp h').symm

theorem built_wf {tf : ℚ → ℚ} {pf : ℚ → ℚ → ℚ} {b : Bool} {s : State}
    (h : Built tf pf b s) : Wf s := by
  induction h with
  | nil _ =>
    intro j
    rw [getN_nil]
    exact ⟨trivial, trivial⟩
  | init b s d _ ih => exact wf_append ih trivial trivial
  | add b s x y hx hy _ ih => exact wf_append ih hx hy
  | sub b s x y hx hy _ ih => exact wf_append ih hx hy
  | mul b s x y hx hy _ ih => exact wf_append ih hx hy
  | div b s x y r hx hy _ heq ih =>
    obtain ⟨h0, hr⟩ := truediv_ok heq
    rw [hr]
    exact wf_append ih hx hy
  | pow b s x c r hx _ heq ih =>
    rw [pow_ok heq]
    exact wf_append ih hx trivial
  | neg b s x hx _ ih => exact wf_append ih hx trivial
  | tanh b s x hx _ ih => exact wf_append ih hx trivial
  | relu b s x hx _ ih => exact wf_append ih hx trivial
  | backward s n hn _ ih => exact wf_shapeEq (backward_shapeEq s n) ih

theorem traverse_getN_high :
    ∀ (fuel : Nat) (s : State) (p : Nat) (o : Option Nat) (cg : Option ℚ)
      (n : Nat), (∀ j ∈ o, j < n) → Wf s →
      getN (Value.traverse fuel s p o cg) n = getN s n := by
  intro fuel
  induction fuel with
  | zero =>
    intro s p o cg n hb hw
    cases o with
    | none => rfl
    | some j => rfl
  | succ f ih =>
    intro s p o cg n hb hw
    cases o with
    | none => rfl
    | some j =>
      have hjn : j < n := hb j rfl
      rw [traverse_succ_eq]
      set t1 := traverseSet s p j cg with ht1
      set t2 := Value.traverse f t1 j (getN t1 j).child_1
        (getN t1 j).grad_child_1 with ht2
      have hsh1 : shapeEqS t1 s := by
        rw [ht1]
        exact shapeEqS_set_grad s j _
      have hw1 : Wf t1 := wf_shapeEq hsh1 hw
      have hsh2 : shapeEqS t2 t1 := by
        rw [ht2]
        exact traverse_shapeEq f t1 j _ _
      have hw2 : Wf t2 := wf_shapeEq (shapeEqS_trans hsh2 hsh1) hw
      have hb1 : ∀ c ∈ (getN t1 j).child_1, c < n := by
        intro c hc
        rw [(hsh1 j).2.1] at hc
        have := optBound_lt (hw j).1 hc
        omega
      have hb2 : ∀ c ∈ (getN t2 j).child_2, c < n := by
        intro c hc
        rw [(shapeEqS_trans hsh2 hsh1 j).2.2.1] at hc
        have := optBound_lt (hw j).2 hc
        omega
      have h2 : getN (Value.traverse f t2 j (getN t2 j).child_2
          (getN t2 j).grad_child_2) n = getN t2 n :=
        ih t2 j ((getN t2 j).child_2) ((getN t2 j).grad_child_2) n hb2 hw2
      have h1 : getN t2 n = getN t1 n := by
        rw [ht2]
        exact ih t1 j ((getN t1 j).child_1) ((getN t1 j).grad_child_1) n
          hb1 hw1
      have h0 : getN t1 n = getN s n := by
        rw [ht1]
        exact getN_set_ne s n j _ (Nat.ne_of_gt hjn)
      rw [h2, h1, h0]

/-- C6: calling `backward` on any node of a graph built through the
public interface sets that node's own gradient to exactly `1.0`; the
traversal only deposits into strictly earlier-constructed nodes, so it
never adds a further contribution to the starting node. -/
theorem backward_root_grad_one {tf : ℚ → ℚ} {pf : ℚ → ℚ → ℚ} {b : Bool}
    {s : State} (hB : Built tf pf b s) {n : Nat} (hn : n < s.length) :
    (getN (Value.backward s n) n).grad = 1 := by
  have hw : Wf s := built_wf hB
  rw [backward_eq]
  set u1 := backwardSet s n with hu1
  set u2 := Value.traverse s.length u1 n (getN u1 n).child_1
    (getN u1 n).grad_child_1 with hu2
  have hsh1 : shapeEqS u1 s := by
    rw [hu1]
    exact shapeEqS_set_grad s n 1
  have hw1 : Wf u1 := wf_shapeEq hsh1 hw
  have h0 : getN u1 n = { getN s n with grad := 1 } := by
    rw [hu1]
    exact getN_set_self s n _ hn
  have hb1 : ∀ c ∈ (getN u1 n).child_1, c < n := by
    intro c hc
    rw [(hsh1 n).2.1] at hc
    exact optBound_lt (hw n).1 hc
  have k1 : getN u2 n = getN u1 n := by
    rw [hu2]
    exact traverse_getN_high s.length u1 n ((getN u1 n).child_1)
      ((getN u1 n).grad_child_1) n hb1 hw1
  have hsh2 : shapeEqS u2 u1 := by
    rw [hu2]
    exact traverse_shapeEq s.length u1 n _ _
  have hw2 : Wf u2 := wf_shapeEq (shapeEqS_trans hsh2 hsh1) hw
  have hb2 : ∀ c ∈ (getN u2 n).child_2, c < n := by
    intro c hc
    rw [(shapeEqS_trans hsh2 hsh1 n).2.2.1] at hc
    exact optBound_lt (hw n).2 hc
  have k2 : getN (Value.traverse s.length u2 n (getN u2 n).child_2
      (getN u2 n).grad_child_2) n = getN u2 n :=
    traverse_getN_high s.length u2 n ((getN u2 n).child_2)
      ((getN u2 n).grad_child_2) n hb2 hw2
  rw [k2, k1, h0]

/-- Witness for C6: a single fresh leaf; after `backward` on it its
gradient is `1`. -/
theorem backward_root_grad_one_witness :
    Built tf0 pf0 false (Value.init [] 2).1 ∧
    0 < (Value.init [] 2).1.length ∧
    (getN (Value.backward (Value.init [] 2).1 0) 0).grad = 1 := by
  have hB : Built tf0 pf0 false (Value.init [] 2).1 :=
    Built.init false [] 2 (Built.nil false)
  exact ⟨hB, by decide, backward_root_grad_one hB (by decide)⟩

theorem built_grads_zero {tf : ℚ → ℚ} {pf : ℚ → ℚ → ℚ} {b : Bool}
    {s : State} (h : Built tf pf b s) (hb : b = false) :
    ∀ i, (getN s i).grad = 0 := by
  induction h with
  | nil _ => intro i; rw [getN_nil]; rfl
  | init b s d _ ih =>
    intro i
    rcases Nat.lt_trichotomy i s.length with hi | hi | hi
    · rw [show getN (Value.init s d).1 i = getN s i from
        getN_append_lt s _ i hi]
      exact ih hb i
    · subst hi
      rw [show getN (Value.init s d).1 s.length = _ from getN_append_self s _]
    · rw [getN_of_length_le]
      · rfl
      · show (s ++ [_]).length ≤ i
        simp
        omega
  | add b s x y hx hy _ ih =>
    intro i
    rcases Nat.lt_trichotomy i s.length with hi | hi | hi
    · rw [show getN (Value.add s x y).1 i = getN s i from
        getN_append_lt s _ i hi]
      exact ih hb i
    · subst hi
      rw [show getN (Value.add s x y).1 s.length = _ from getN_append_self s _]
    · rw [getN_of_length_le]
      · rfl
      · show (s ++ [_]).length ≤ i
        simp
        omega
  | sub b s x y hx hy _ ih =>
    intro i
    rcases Nat.lt_trichotomy i s.length with hi | hi | hi
    · rw [show getN (Value.sub s x y).1 i = getN s i from
        getN_append_lt s _ i hi]
      exact ih hb i
    · subst hi
      rw [show getN (Value.sub s x y).1 s.length = _ from getN_append_self s _]
    · rw [getN_of_length_le]
      · rfl
      · show (s ++ [_]).length ≤ i
        simp
        omega
  | mul b s x y hx hy _ ih =>
    intro i
    rcases Nat.lt_trichotomy i s.length with hi | hi | hi
    · rw [show getN (Value.mul s x y).1 i = getN s i from
        getN_append_lt s _ i hi]
      exact ih hb i
    · subst hi
      rw [show getN (Value.mul s x y).1 s.length = _ from getN_append_self s _]
    · rw [getN_of_length_le]
      · rfl
      · show (s ++ [_]).length ≤ i
        simp
        omega
  | div b s x y r hx hy _ heq ih =>
    intro i
    obtain ⟨h0, hr⟩ := truediv_ok heq
    rw [hr]
    rcases Nat.lt_trichotomy i s.length with hi | hi | hi
    · rw [show getN (s ++ [_], s.length).1 i = getN s i from
        getN_append_lt s _ i hi]
      exact ih hb i
    · subst hi
      rw [show getN (s ++ [_], s.length).1 s.length = _ from
        getN_append_self s _]
    · rw [getN_of_length_le]
      · rfl
      · show (s ++ [_]).length ≤ i
        simp
        omega
  | pow b s x c r hx _ heq ih =>
    intro i
    rw [pow_ok heq]
    rcases Nat.lt_trichotomy i s.length with hi | hi | hi
    · rw [show getN (s ++ [_], s.length).1 i = getN s i from
        getN_append_lt s _ i hi]
      exact ih hb i
    · subst hi
      rw [show getN (s ++ [_], s.length).1 s.length = _ from
        getN_append_self s _]
    · rw [getN_of_length_le]
      · rfl
      · show (s ++ [_]).length ≤ i
        simp
        omega
  | neg b s x hx _ ih =>
    intro i
    rcases Nat.lt_trichotomy i s.length with hi | hi | hi
    · rw [show getN (Value.neg s x).1 i = getN s i from
        getN_append_lt s _ i hi]
      exact ih hb i
    · subst hi
      rw [show getN (Value.neg s x).1 s.length = _ from getN_append_self s _]
    · rw [getN_of_length_le]
      · rfl
      · show (s ++ [_]).length ≤ i
        simp
        omega
  | tanh b s x hx _ ih =>
    intro i
    rcases Nat.lt_trichotomy i s.length with hi | hi | hi
    · rw [show getN (Value.tanh tf s x).1 i = getN s i from
        getN_append_lt s _ i hi]
      exact ih hb i
    · subst hi
      rw [show getN (Value.tanh tf s x).1 s.length = _ from
        getN_append_self s _]
    · rw [getN_of_length_le]
      · rfl
      · show (s ++ [_]).length ≤ i
        simp
        omega
  | relu b s x hx _ ih =>
    intro i
    rcases Nat.lt_trichotomy i s.length with hi | hi | hi
    · rw [show getN (Value.relu s x).1 i = getN s i from
        getN_append_lt s _ i hi]
      exact ih hb i
    · subst hi
      rw [show getN (Value.relu s x).1 s.length = _ from getN_append_self s _]
    · rw [getN_of_length_le]
      · rfl
      · show (s ++ [_]).length ≤ i
        simp
        omega
  | backward s n hn _ ih => exact absurd hb (by simp)

/-- C7: constructing a node leaves every existing node untouched (each
operation only appends a new node); a backward pass changes at most
the `grad` field of any node (`eqShape` is preserved for every index);
and in a heap built with no propagation pass every leaf node still has
gradient `0`, no matter how many operations were built from it. -/
theorem only_gradients_mutate (tf : ℚ → ℚ) (pf : ℚ → ℚ → ℚ) :
    (∀ s d i, i < s.length → getN (Value.init s d).1 i = getN s i) ∧
    (∀ s a b i, i < s.length → getN (Value.add s a b).1 i = getN s i) ∧
    (∀ s a b i, i < s.length → getN (Value.sub s a b).1 i = getN s i) ∧
    (∀ s a b i, i < s.length → getN (Value.mul s a b).1 i = getN s i) ∧
    (∀ s a b r i, Value.truediv s a b = Except.ok r → i < s.length →
      getN r.1 i = getN s i) ∧
    (∀ s a c r i, Value.pow pf s a (PowArg.const c) = Except.ok r →
      i < s.length → getN r.1 i = getN s i) ∧
    (∀ s a i, i < s.length → getN (Value.neg s a).1 i = getN s i) ∧
    (∀ s a i, i < s.length → getN (Value.tanh tf s a).1 i = getN s i) ∧
    (∀ s a i, i < s.length → getN (Value.relu s a).1 i = getN s i) ∧
    (∀ s r i, eqShape (getN (Value.backward s r) i) (getN s i)) ∧
    (∀ s, Built tf pf false s → ∀ i, (getN s i).child_1 = none →
      (getN s i).grad = 0) := by
  refine ⟨?_, ?_, ?_, ?_, ?_, ?_, ?_, ?_, ?_, ?_, ?_⟩
  · intro s d i hi
    exact getN_append_lt s _ i hi
  · intro s a b i hi
    exact getN_append_lt s _ i hi
  · intro s a b i hi
    exact getN_append_lt s _ i hi
  · intro s a b i hi
    exact getN_append_lt s _ i hi
  · intro s a b r i hr hi
    rw [(truediv_ok hr).2]
    exact getN_append_lt s _ i hi
  · intro s a c r i hr hi
    rw [pow_ok hr]
    exact getN_append_lt s _ i hi
  · intro s a i hi
    exact getN_append_lt s _ i hi
  · intro s a i hi
    exact getN_append_lt s _ i hi
  · intro s a i hi
    exact getN_append_lt s _ i hi
  · intro s r i
    exact backward_shapeEq s r i
  · intro s hB i _
    exact built_grads_zero hB rfl i

/-- Witness for C7: existing nodes of `sLeaves` are untouched by an
addition; a backward pass on the concrete scenario heap preserves the
shape of the leaf node; the two-leaf heap is built with no propagation
and its first leaf still has gradient `0`. -/
theorem only_gradients_mutate_witness :
    (0 < sLeaves.length ∧ (getN sLeaves 0).child_1 = none) ∧
    getN (Value.add sLeaves 0 1).1 0 = getN sLeaves 0 ∧
    eqShape (getN (Value.backward sScen 4) 0) (getN sScen 0) ∧
    (getN sLeaves 0).grad = 0 := by
  have hB : Built tf0 pf0 false sLeaves :=
    Built.init false (Value.init [] 2).1 3 (Built.init false [] 2
      (Built.nil false))
  have H := only_gradients_mutate tf0 pf0
  exact ⟨⟨by decide, by decide⟩,
    H.2.1 sLeaves 0 1 0 (by decide),
    H.2.2.2.2.2.2.2.2.2.1 sScen 4 0,
    H.2.2.2.2.2.2.2.2.2.2 sLeaves hB 0 (by decide)⟩

theorem slotInv_eqShape {n m : Value} (h : eqShape n m) (hs : slotInv m) :
    slotInv n := by
  obtain ⟨_, h1, h2, h3, h4⟩ := h
  unfold slotInv leafShape unaryShape binaryShape
  rw [h1, h2, h3, h4]
  exact hs

theorem slotInv_append {s : State} {v : Value}
    (ih : ∀ i, i < s.length → slotInv (getN s i)) (hv : slotInv v) :
    ∀ i, i < (s ++ [v]).length → slotInv (getN (s ++ [v]) i) := by
  intro i hi
  rcases Nat.lt_or_ge i s.length with hlt | hge
  · rw [getN_append_lt s v i hlt]
    exact ih i hlt
  · have hi' : i = s.length := by
      simp at hi
      omega
    subst hi'
    rw [getN_append_self]
    exact hv

theorem built_slotInv {tf : ℚ → ℚ} {pf : ℚ → ℚ → ℚ} {b : Bool} {s : State}
    (h : Built tf pf b s) : ∀ i, i < s.length → slotInv (getN s i) := by
  induction h with
  | nil _ =>
    intro i hi
    simp at hi
  | init b s d _ ih =>
    exact slotInv_append ih (Or.inl ⟨rfl, rfl, rfl, rfl⟩)
  | add b s x y hx hy _ ih =>
    exact slotInv_append ih (Or.inr (Or.inr
      ⟨by simp, by simp, by simp, by simp⟩))
  | sub b s x y hx hy _ ih =>
    exact slotInv_append ih (Or.inr (Or.inr
      ⟨by simp, by simp, by simp, by simp⟩))
  | mul b s x y hx hy _ ih =>
    exact slotInv_append ih (Or.inr (Or.inr
      ⟨by simp, by simp, by simp, by simp⟩))
  | div b s x y r hx hy _ heq ih =>
    have hr := (truediv_ok heq).2
    rw [hr]
    exact slotInv_append ih (Or.inr (Or.inr
      ⟨by simp, by simp, by simp, by simp⟩))
  | pow b s x c r hx _ heq ih =>
    rw [pow_ok heq]
    exact slotInv_append ih (Or.inr (Or.inl
      ⟨by simp, by simp, by simp, by simp⟩))
  | neg b s x hx _ ih =>
    exact slotInv_append ih (Or.inr (Or.inl
      ⟨by simp, by simp, by simp, by simp⟩))
  | tanh b s x hx _ ih =>
    exact slotInv_append ih (Or.inr (Or.inl
      ⟨by simp, by simp, by simp, by simp⟩))
  | relu b s x hx _ ih =>
    exact slotInv_append ih (Or.inr (Or.inl
      ⟨by simp, by simp, by simp, by simp⟩))
  | backward s n hn _ ih =>
    intro i hi
    rw [backward_length] at hi
    exact slotInv_eqShape (backward_shapeEq s n i) (ih i hi)

/-- C8: every node of a heap built through the public interface has
leaf, unary, or binary slot shape, and this survives every operation
and every backward pass; moreover each construction produces the shape
of its kind: the leaf constructor a leaf-shaped node, power with a
plain exponent, negate, tanh and relu a unary-shaped node, and add,
subtract, multiply and divide a binary-shaped node. -/
theorem slot_invariant_built (tf : ℚ → ℚ) (pf : ℚ → ℚ → ℚ) :
    (∀ b s, Built tf pf b s → ∀ i, i < s.length → slotInv (getN s i)) ∧
    (∀ s d, leafShape (getN (Value.init s d).1 (Value.init s d).2)) ∧
    (∀ s a c r, Value.pow pf s a (PowArg.const c) = Except.ok r →
      unaryShape (getN r.1 r.2)) ∧
    (∀ s a, unaryShape (getN (Value.neg s a).1 (Value.neg s a).2)) ∧
    (∀ s a, unaryShape (getN (Value.tanh tf s a).1 (Value.tanh tf s a).2)) ∧
    (∀ s a, unaryShape (getN (Value.relu s a).1 (Value.relu s a).2)) ∧
    (∀ s a b, binaryShape (getN (Value.add s a b).1 (Value.add s a b).2)) ∧
    (∀ s a b, binaryShape (getN (Value.sub s a b).1 (Value.sub s a b).2)) ∧
    (∀ s a b, binaryShape (getN (Value.mul s a b).1 (Value.mul s a b).2)) ∧
    (∀ s a b r, Value.truediv s a b = Except.ok r →
      binaryShape (getN r.1 r.2)) := by
  refine ⟨?_, ?_, ?_, ?_, ?_, ?_, ?_, ?_, ?_, ?_⟩
  · intro b s hB
    exact built_slotInv hB
  · intro s d
    rw [show getN (Value.init s d).1 (Value.init s d).2 = _ from
      getN_append_self s _]
    exact ⟨rfl, rfl, rfl, rfl⟩
  · intro s a c r hr
    rw [pow_ok hr]
    rw [show getN (s ++ [_], s.length).1 (s ++ [_], s.length).2 = _ from
      getN_append_self s _]
    exact ⟨by simp, by simp, rfl, rfl⟩
  · intro s a
    rw [show getN (Value.neg s a).1 (Value.neg s a).2 = _ from
      getN_append_self s _]
    exact ⟨by simp, by simp, rfl, rfl⟩
  · intro s a
    rw [show getN (Value.tanh tf s a).1 (Value.tanh tf s a).2 = _ from
      getN_append_self s _]
    exact ⟨by simp, by simp, rfl, rfl⟩
  · intro s a
    rw [show getN (Value.relu s a).1 (Value.relu s a).2 = _ from
      getN_append_self s _]
    exact ⟨by simp, by simp, rfl, rfl⟩
  · intro s a b
    rw [show getN (Value.add s a b).1 (Value.add s a b).2 = _ from
      getN_append_self s _]
    exact ⟨by simp, by simp, by simp, by simp⟩
  · intro s a b
    rw [show getN (Value.sub s a b).1 (Value.sub s a b).2 = _ from
      getN_append_self s _]
    exact ⟨by simp, by simp, by simp, by simp⟩
  · intro s a b
    rw [show getN (Value.mul s a b).1 (Value.mul s a b).2 = _ from
      getN_append_self s _]
    exact ⟨by simp, by simp, by simp, by simp⟩
  · intro s a b r hr
    rw [(truediv_ok hr).2]
    rw [show getN (s ++ [_], s.length).1 (s ++ [_], s.length).2 = _ from
      getN_append_self s _]
    exact ⟨by simp, by simp, by simp, by simp⟩

/-- Witness for C8: a heap built as leaf, tanh, then add satisfies the
slot invariant at the tanh node (index 1). -/
theorem slot_invariant_built_witness :
    Built tf0 pf0 false
      (Value.add (Value.tanh tf0 (Value.init [] 2).1 0).1 0 1).1 ∧
    1 < (Value.add (Value.tanh tf0 (Value.init [] 2).1 0).1 0 1).1.length ∧
    slotInv (getN
      (Value.add (Value.tanh tf0 (Value.init [] 2).1 0).1 0 1).1 1) := by
  have hB : Built tf0 pf0 false
      (Value.add (Value.tanh tf0 (Value.init [] 2).1 0).1 0 1).1 :=
    Built.add false (Value.tanh tf0 (Value.init [] 2).1 0).1 0 1
      (by decide) (by decide)
      (Built.tanh false (Value.init [] 2).1 0 (by decide)
        (Built.init false [] 2 (Built.nil false)))
  exact ⟨hB, by decide,
    (slot_invariant_built tf0 pf0).1 false _ hB 1 (by decide)⟩

/-- C9: the divide operation performs no validation of its divisor:
when the divisor node's data is `0`, the first division primitive
raises (`pydiv` returns `Except.error`, the model of Python's
`ZeroDivisionError`), the failure propagates out of the operation, no
node is ever returned, and no heap cell is written (the operation
produces no new heap at all, so both operand nodes are untouched). -/
theorem truediv_zero_divisor (s : State) (a b : Nat)
    (h : (getN s b).data = 0) :
    Value.truediv s a b = Except.error () ∧
    ∀ r, Value.truediv s a b ≠ Except.ok r := by
  have he : Value.truediv s a b = Except.error () := by
    simp only [Value.truediv, pydiv, if_pos h]
    rfl
  refine ⟨he, ?_⟩
  intro r hr
  rw [he] at hr
  exact absurd hr (by simp)

/-- Witness for C9: dividing by the zero leaf raises. -/
theorem truediv_zero_divisor_witness :
    (getN sLeaf0 0).data = 0 ∧
    Value.truediv sLeaf0 0 0 = Except.error () := by
  have h : (getN sLeaf0 0).data = 0 := by decide
  exact ⟨h, (truediv_zero_divisor sLeaf0 0 0 h).1⟩
